import Mathlib

/-!
Verification development for the entropy-viz particle simulation.

The repository drives a particle simulation with two backends: a WebGPU
compute path (physics.wgsl, density-splat.wgsl, histogram.wgsl) and a CPU
fallback (webgl-fallback.js), plus a state machine (state-machine.js) and a
Shannon-entropy meter (entropy-calculator.js).  This file gives a shallow
embedding of those components and settles the frozen claims about them.

Modelling conventions:
- f32/f64 arithmetic is modelled by exact arithmetic: the real numbers for
  physics (sqrt/exp) and the rationals for the state machine and lattice,
  whose constants are all exactly representable questions of field
  arithmetic.
- The pseudo-random draws consumed by the integrators (the LCG stream of
  webgl-fallback.js and the hashed Box-Muller samples of physics.wgsl) are
  passed to the step functions as explicit inputs; every theorem below
  quantifies over them, which covers the concrete generators.
-/

/-! ## Vectors: componentwise 3-vector arithmetic as written in the sources -/

/-- Component triple standing for a vec3 of f32 (shader) or the three scalar
slots of a particle record (fallback). -/
@[ext]
structure Vec3 where
  x : ℝ
  y : ℝ
  z : ℝ

instance : Add Vec3 := ⟨fun a b => ⟨a.x + b.x, a.y + b.y, a.z + b.z⟩⟩

instance : Sub Vec3 := ⟨fun a b => ⟨a.x - b.x, a.y - b.y, a.z - b.z⟩⟩

instance : Neg Vec3 := ⟨fun a => ⟨-a.x, -a.y, -a.z⟩⟩

instance : SMul ℝ Vec3 := ⟨fun c a => ⟨c * a.x, c * a.y, c * a.z⟩⟩

instance : Zero Vec3 := ⟨⟨0, 0, 0⟩⟩

/-- Dot product of two component triples. -/
def Vec3.dot (a b : Vec3) : ℝ := a.x * b.x + a.y * b.y + a.z * b.z

/-- Squared Euclidean magnitude, the argument of every Math.sqrt/length call
in the sources. -/
def Vec3.normSq (v : Vec3) : ℝ := v.x ^ 2 + v.y ^ 2 + v.z ^ 2

/-- Euclidean magnitude: Math.sqrt(x*x + y*y + z*z) in webgl-fallback.js,
length() in WGSL. -/
noncomputable def Vec3.length (v : Vec3) : ℝ := Real.sqrt v.normSq

@[simp] theorem Vec3.add_def (a b : Vec3) : a + b = ⟨a.x + b.x, a.y + b.y, a.z + b.z⟩ := rfl

@[simp] theorem Vec3.sub_def (a b : Vec3) : a - b = ⟨a.x - b.x, a.y - b.y, a.z - b.z⟩ := rfl

@[simp] theorem Vec3.smul_def (c : ℝ) (a : Vec3) : c • a = ⟨c * a.x, c * a.y, c * a.z⟩ := rfl

@[simp] theorem Vec3.zero_def : (0 : Vec3) = ⟨0, 0, 0⟩ := rfl

theorem Vec3.normSq_nonneg (v : Vec3) : 0 ≤ v.normSq := by
  have hx := sq_nonneg v.x
  have hy := sq_nonneg v.y
  have hz := sq_nonneg v.z
  unfold Vec3.normSq
  linarith

theorem Vec3.length_nonneg (v : Vec3) : 0 ≤ v.length := Real.sqrt_nonneg _

theorem Vec3.sq_length (v : Vec3) : v.length ^ 2 = v.normSq := by
  unfold Vec3.length
  exact Real.sq_sqrt v.normSq_nonneg

theorem Vec3.length_eq_of_sq (v : Vec3) (c : ℝ) (hc : 0 ≤ c) (h : v.normSq = c ^ 2) :
    v.length = c := by
  unfold Vec3.length
  rw [h]
  exact Real.sqrt_sq hc

theorem Vec3.length_smul (c : ℝ) (v : Vec3) : (c • v).length = |c| * v.length := by
  unfold Vec3.length Vec3.normSq
  have h : (c • v).x ^ 2 + (c • v).y ^ 2 + (c • v).z ^ 2
      = c ^ 2 * (v.x ^ 2 + v.y ^ 2 + v.z ^ 2) := by
    simp
    ring
  rw [h, Real.sqrt_mul (sq_nonneg c), Real.sqrt_sq_eq_abs]

theorem Vec3.dot_self (v : Vec3) : v.dot v = v.normSq := by
  unfold Vec3.dot Vec3.normSq
  ring

/-- Cauchy-Schwarz for component triples, squared form. -/
theorem Vec3.dot_sq_le (a b : Vec3) : (a.dot b) ^ 2 ≤ a.normSq * b.normSq := by
  unfold Vec3.dot Vec3.normSq
  nlinarith [sq_nonneg (a.x * b.y - a.y * b.x), sq_nonneg (a.x * b.z - a.z * b.x),
    sq_nonneg (a.y * b.z - a.z * b.y)]

/-- Cauchy-Schwarz for component triples. -/
theorem Vec3.dot_le (a b : Vec3) : a.dot b ≤ a.length * b.length := by
  have h1 : a.dot b ≤ |a.dot b| := le_abs_self _
  have h2 : |a.dot b| = Real.sqrt ((a.dot b) ^ 2) := (Real.sqrt_sq_eq_abs _).symm
  have h3 : Real.sqrt ((a.dot b) ^ 2) ≤ Real.sqrt (a.normSq * b.normSq) :=
    Real.sqrt_le_sqrt (a.dot_sq_le b)
  have h4 : Real.sqrt (a.normSq * b.normSq) = a.length * b.length := by
    unfold Vec3.length
    exact Real.sqrt_mul a.normSq_nonneg _
  linarith [h1, h2 ▸ h3, h4 ▸ (h2 ▸ h3)]

theorem Vec3.abs_dot_le (a b : Vec3) : |a.dot b| ≤ a.length * b.length := by
  rcases abs_cases (a.dot b) with ⟨h, _⟩ | ⟨h, _⟩
  · rw [h]; exact a.dot_le b
  · rw [h]
    have := Vec3.dot_le ⟨-a.x, -a.y, -a.z⟩ b
    have hd : Vec3.dot ⟨-a.x, -a.y, -a.z⟩ b = -(a.dot b) := by unfold Vec3.dot; ring
    have hl : Vec3.length ⟨-a.x, -a.y, -a.z⟩ = a.length := by
      unfold Vec3.length Vec3.normSq; ring_nf
    rw [hd, hl] at this
    exact this

theorem Vec3.normSq_add (a b : Vec3) : (a + b).normSq = a.normSq + 2 * a.dot b + b.normSq := by
  unfold Vec3.normSq Vec3.dot
  simp
  ring

theorem Vec3.length_add_le (a b : Vec3) : (a + b).length ≤ a.length + b.length := by
  have hs : (a + b).normSq ≤ (a.length + b.length) ^ 2 := by
    rw [Vec3.normSq_add]
    have h1 := a.dot_le b
    have h2 := a.sq_length
    have h3 := b.sq_length
    nlinarith [a.length_nonneg, b.length_nonneg]
  have := Real.sqrt_le_sqrt hs
  rw [Real.sqrt_sq (add_nonneg a.length_nonneg b.length_nonneg)] at this
  exact this

theorem Vec3.length_le_of_normSq_le (v : Vec3) (c : ℝ) (hc : 0 ≤ c)
    (h : v.normSq ≤ c ^ 2) : v.length ≤ c := by
  have := Real.sqrt_le_sqrt h
  rw [Real.sqrt_sq hc] at this
  exact this

/-! ## Speed binning: histogram.wgsl and the fallback histogram loop -/

/-- GPU binning rule from histogram.wgsl with the shader constants
max_speed = 8.0 and num_bins = 64:
bin = u32(clamp(speed / max_speed, 0.0, 0.9999) * f32(num_bins)).
WGSL clamp(x, lo, hi) is min(max(x, lo), hi) and u32() truncates toward
zero, saturating at 0 for negative input. -/
noncomputable def gpuBin (speed : ℝ) : ℕ :=
  (⌊min (max (speed / 8) 0) 0.9999 * 64⌋).toNat

/-- Fallback binning rule from webgl-fallback.js updatePhysics:
bin = Math.min(Math.floor((spd / 8.0) * HIST_BINS), HIST_BINS - 1) with
HIST_BINS = 64.  Kept as an integer since Math.floor of a negative argument
would stay negative in JS. -/
noncomputable def fallbackBin (speed : ℝ) : ℤ :=
  min ⌊speed / 8 * 64⌋ 63

/-! ## State machine: state-machine.js -/

/-- Four states of the order/chaos machine. -/
inductive SMState where
  | ORDERED
  | SHATTERING
  | CHAOS
  | REASSEMBLING
deriving DecidableEq

/-- Mutable fields of the StateMachine class.  All its numeric constants
(1.5, 2.0, 0.1, the easing polynomials) are exactly representable, so the
rationals model the double arithmetic faithfully on this code path. -/
structure StateMachine where
  state : SMState
  tOrder : ℚ
  transitionProgress : ℚ
  transitionDuration : ℚ
  elapsed : ℚ
deriving DecidableEq

/-- Constructor state of StateMachine: ORDERED with tOrder 1. -/
def StateMachine.init : StateMachine :=
  { state := SMState.ORDERED, tOrder := 1, transitionProgress := 0,
    transitionDuration := 0, elapsed := 0 }

/-- Easing easeOutCubic(t) = 1 - (1 - t)^3. -/
def easeOutCubic (t : ℚ) : ℚ := 1 - (1 - t) ^ 3

/-- Easing easeInOutQuad(t) = t < 0.5 ? 2 t^2 : 1 - (-2t + 2)^2 / 2. -/
def easeInOutQuad (t : ℚ) : ℚ :=
  if t < 1/2 then 2 * t * t else 1 - (-2 * t + 2) ^ 2 / 2

/-- Getter canClick: true only in ORDERED or CHAOS. -/
def StateMachine.canClick (m : StateMachine) : Bool :=
  decide (m.state = SMState.ORDERED) || decide (m.state = SMState.CHAOS)

/-- Rational model of Math.min. -/
def jsMin (a b : ℚ) : ℚ := if a ≤ b then a else b

/-- Method click(): start SHATTERING from ORDERED (duration 1.5),
REASSEMBLING from CHAOS (duration 2.0), otherwise do nothing. -/
def StateMachine.click (m : StateMachine) : StateMachine :=
  if m.state = SMState.ORDERED then
    { m with
      state := SMState.SHATTERING
      transitionDuration := 3/2
      transitionProgress := 0
      elapsed := 0 }
  else if m.state = SMState.CHAOS then
    { m with
      state := SMState.REASSEMBLING
      transitionDuration := 2
      transitionProgress := 0
      elapsed := 0 }
  else m

/-- Method update(dt): advance the transition timer; on reaching progress 1
snap to the terminal state with tOrder forced to the endpoint. -/
def StateMachine.update (m : StateMachine) (dt : ℚ) : StateMachine :=
  if m.state = SMState.SHATTERING then
    let elapsed := m.elapsed + dt
    let progress := jsMin (elapsed / m.transitionDuration) 1
    if 1 ≤ progress then
      { state := SMState.CHAOS, tOrder := 0, transitionProgress := progress,
        transitionDuration := m.transitionDuration, elapsed := elapsed }
    else
      { state := SMState.SHATTERING, tOrder := 1 - easeOutCubic progress,
        transitionProgress := progress,
        transitionDuration := m.transitionDuration, elapsed := elapsed }
  else if m.state = SMState.REASSEMBLING then
    let elapsed := m.elapsed + dt
    let progress := jsMin (elapsed / m.transitionDuration) 1
    if 1 ≤ progress then
      { state := SMState.ORDERED, tOrder := 1, transitionProgress := progress,
        transitionDuration := m.transitionDuration, elapsed := elapsed }
    else
      { state := SMState.REASSEMBLING, tOrder := easeInOutQuad progress,
        transitionProgress := progress,
        transitionDuration := m.transitionDuration, elapsed := elapsed }
  else m

/-- Iterated update with a fixed dt. -/
def StateMachine.updateN (m : StateMachine) (dt : ℚ) : ℕ → StateMachine
  | 0 => m
  | n + 1 => (m.updateN dt n).update dt

/-! ## Entropy meter: entropy-calculator.js -/

/-- Fields of the EntropyCalculator class. -/
structure EntropyCalculator where
  numBins : ℕ
  maxEntropy : ℝ
  currentEntropy : ℝ
  normalizedEntropy : ℝ
  displayEntropy : ℝ
  smoothing : ℝ

/-- Constructor state: maxEntropy = log2(numBins), entropies zero,
smoothing 0.12. -/
noncomputable def EntropyCalculator.create (numBins : ℕ) : EntropyCalculator :=
  { numBins := numBins, maxEntropy := Real.logb 2 numBins, currentEntropy := 0,
    normalizedEntropy := 0, displayEntropy := 0, smoothing := 12/100 }

/-- Shannon entropy sum of the nonzero bins: H = -sum p log2 p with
p = count / total, skipping zero bins as the code does. -/
noncomputable def entropySum (hist : List ℕ) : ℝ :=
  -((hist.map (fun c =>
      if 0 < c then ((c : ℝ) / (hist.sum : ℝ)) * Real.logb 2 ((c : ℝ) / (hist.sum : ℝ))
      else 0)).sum)

/-- Method compute(histogram): returns the updated calculator together with
the { entropy, normalized } result pair.  A zero-total histogram takes the
early-return branch and never divides by the total. -/
noncomputable def EntropyCalculator.compute (ec : EntropyCalculator) (hist : List ℕ) :
    EntropyCalculator × ℝ × ℝ :=
  if hist.sum = 0 then
    ({ ec with currentEntropy := 0, normalizedEntropy := 0 }, 0, 0)
  else
    let H := entropySum hist
    ({ ec with currentEntropy := H, normalizedEntropy := H / ec.maxEntropy },
      H, H / ec.maxEntropy)

/-- Method updateDisplay(dt): displayEntropy += (normalized - display) * 0.12. -/
noncomputable def EntropyCalculator.updateDisplay (ec : EntropyCalculator) : EntropyCalculator :=
  { ec with displayEntropy :=
      ec.displayEntropy + (ec.normalizedEntropy - ec.displayEntropy) * ec.smoothing }

/-! ## Claim C5: ORDERED, click, then fifteen updates of dt = 0.1 -/

/-- Trajectory invariant for C5: during the first fourteen updates the
machine is still SHATTERING with elapsed = n/10. -/
theorem updateN_shattering_invariant (n : ℕ) (hn : n ≤ 14) :
    (StateMachine.init.click.updateN (1/10) n).state = SMState.SHATTERING ∧
    (StateMachine.init.click.updateN (1/10) n).transitionDuration = 3/2 ∧
    (StateMachine.init.click.updateN (1/10) n).elapsed = (n : ℚ)/10 := by
  induction n with
  | zero =>
    refine ⟨rfl, rfl, ?_⟩
    show (0 : ℚ) = (0 : ℕ)/10
    norm_num
  | succ k ih =>
    obtain ⟨hs, hd, he⟩ := ih (by omega)
    have hk : (k : ℚ) ≤ 13 := by exact_mod_cast (by omega : k ≤ 13)
    have ha : ((k : ℚ)/10 + 1/10) / (3/2) < 1 := by
      rw [div_lt_one (by norm_num)]
      linarith
    have hstep : StateMachine.init.click.updateN (1/10) (k + 1) =
        (StateMachine.init.click.updateN (1/10) k).update (1/10) := rfl
    rw [hstep]
    unfold StateMachine.update
    rw [hs, hd, he]
    simp only [if_pos rfl]
    rw [jsMin, if_pos (le_of_lt ha), if_neg (not_le.mpr ha)]
    refine ⟨rfl, rfl, ?_⟩
    push_cast
    ring

/-- Claim C5: starting the machine in ORDERED, one click() followed by
fifteen update(0.1) calls leaves it in CHAOS with tOrder exactly 0; after
fourteen updates it is still SHATTERING with elapsed 1.4 < 1.5, and the
transition fires on the fifteenth update with elapsed 1.5.  (Exact
rational arithmetic; the IEEE-754 double trace reaches the same states,
with elapsed 1.5000000000000002 >= 1.5 at step 15.) -/
theorem stateMachine_click_fifteen_updates_reaches_chaos :
    (StateMachine.init.click.updateN (1/10) 15).state = SMState.CHAOS ∧
    (StateMachine.init.click.updateN (1/10) 15).tOrder = 0 ∧
    (StateMachine.init.click.updateN (1/10) 15).elapsed = 3/2 ∧
    (StateMachine.init.click.updateN (1/10) 14).state = SMState.SHATTERING ∧
    (StateMachine.init.click.updateN (1/10) 14).elapsed < 3/2 := by
  obtain ⟨hs, hd, he⟩ := updateN_shattering_invariant 14 (le_refl 14)
  have hstep : StateMachine.init.click.updateN (1/10) 15 =
      (StateMachine.init.click.updateN (1/10) 14).update (1/10) := rfl
  have hfull : StateMachine.init.click.updateN (1/10) 15 =
      { state := SMState.CHAOS, tOrder := 0, transitionProgress := 1,
        transitionDuration := 3/2, elapsed := 3/2 } := by
    rw [hstep]
    unfold StateMachine.update
    rw [hs, hd, he]
    norm_num [jsMin]
  refine ⟨by rw [hfull], by rw [hfull], by rw [hfull], hs, ?_⟩
  rw [he]
  norm_num

/-! ## Claim C8: click is a no-op during transitions -/

/-- Claim C8: when the machine is SHATTERING or REASSEMBLING, click()
returns the machine with every field unchanged. -/
theorem click_noop_during_transition (m : StateMachine)
    (h : m.state = SMState.SHATTERING ∨ m.state = SMState.REASSEMBLING) :
    m.click = m := by
  unfold StateMachine.click
  rcases h with h | h <;> rw [h] <;> simp

/-- Witness for C8 at a concrete mid-transition machine. -/
theorem click_noop_during_transition_witness :
    ({ state := SMState.SHATTERING, tOrder := 1/2, transitionProgress := 1/3,
       transitionDuration := 3/2, elapsed := 1/2 } : StateMachine).click =
    { state := SMState.SHATTERING, tOrder := 1/2, transitionProgress := 1/3,
      transitionDuration := 3/2, elapsed := 1/2 } :=
  click_noop_during_transition _ (Or.inl rfl)

/-! ## Claim C6: the two binning rules agree on nonnegative speeds -/

/-- Claim C6: for every nonnegative speed, the GPU binning rule
u32(clamp(s/8, 0, 0.9999) * 64) of histogram.wgsl and the fallback rule
min(floor(s/8 * 64), 63) of webgl-fallback.js select the same bin. -/
theorem gpu_fallback_bin_agree (s : ℝ) (hs : 0 ≤ s) :
    (gpuBin s : ℤ) = fallbackBin s := by
  unfold gpuBin fallbackBin
  have hx : (0 : ℝ) ≤ s / 8 := by positivity
  rw [max_eq_left hx]
  rcases le_or_lt (s / 8) 0.9999 with h | h
  · rw [min_eq_left h]
    have hlt : s / 8 * 64 < 64 := by nlinarith
    have hfl : ⌊s / 8 * 64⌋ ≤ 63 := by
      have h64 : ⌊s / 8 * 64⌋ < (64 : ℤ) := Int.floor_lt.mpr (by push_cast; exact hlt)
      omega
    rw [min_eq_left hfl]
    exact Int.toNat_of_nonneg (Int.floor_nonneg.mpr (by positivity))
  · rw [min_eq_right (le_of_lt h)]
    have h63 : (63 : ℤ) ≤ ⌊s / 8 * 64⌋ := by
      apply Int.le_floor.mpr
      push_cast
      nlinarith
    rw [min_eq_right h63]
    have hc : ⌊(0.9999 : ℝ) * 64⌋ = 63 := by
      apply Int.floor_eq_iff.mpr
      norm_num
    rw [hc]
    rfl

/-- Witness for C6 at speed 3: both rules give bin 24. -/
theorem gpu_fallback_bin_agree_witness :
    (0 : ℝ) ≤ 3 ∧ (gpuBin 3 : ℤ) = fallbackBin 3 :=
  ⟨by norm_num, gpu_fallback_bin_agree 3 (by norm_num)⟩

/-! ## Claim C7: zero-total histogram yields entropy zero -/

/-- Claim C7: compute() on an all-zero histogram returns entropy 0 and
normalized 0 and stores 0 in both entropy fields; the zero-total guard
prevents the division by total from being reached. -/
theorem compute_zero_histogram (ec : EntropyCalculator) (hist : List ℕ)
    (h : ∀ c ∈ hist, c = 0) :
    (ec.compute hist).1.currentEntropy = 0 ∧
    (ec.compute hist).1.normalizedEntropy = 0 ∧
    (ec.compute hist).2 = (0, 0) := by
  have hsum : hist.sum = 0 := List.sum_eq_zero h
  unfold EntropyCalculator.compute
  rw [if_pos hsum]
  exact ⟨rfl, rfl, rfl⟩

/-- Witness for C7 on the 64-bin all-zero histogram. -/
theorem compute_zero_histogram_witness :
    ((EntropyCalculator.create 64).compute (List.replicate 64 0)).1.currentEntropy = 0 ∧
    ((EntropyCalculator.create 64).compute (List.replicate 64 0)).1.normalizedEntropy = 0 ∧
    ((EntropyCalculator.create 64).compute (List.replicate 64 0)).2 = (0, 0) :=
  compute_zero_histogram _ _ (fun _ hc => List.eq_of_mem_replicate hc)

/-! ## Particle integrators: physics.wgsl and webgl-fallback.js updatePhysics

The pseudo-random draws (three LCG values per particle in the fallback,
three Box-Muller normals in the shader) are passed in as a Vec3 argument;
all theorems quantify over them. -/

/-- Particle record: position, velocity, home lattice anchor and the cached
speed slot (particles[base+9] in the fallback, p.speed in the shader). -/
structure Particle where
  pos : Vec3
  vel : Vec3
  home : Vec3
  speed : ℝ

/-- Fallback damping: dampChaos + (dampOrdered - dampChaos) * tOrder with
dampOrdered = 0.97 and dampChaos = 0.999. -/
def fbDamping (tOrder : ℝ) : ℝ := 0.999 + (0.97 - 0.999) * tOrder

/-- Fallback force: (home - pos) * springK * tOrder + rand * noiseStr * (1 - tOrder)
per component, springK = 12, noiseStr = 4, with the three rand() draws r. -/
def fbForce (p : Particle) (tOrder : ℝ) (r : Vec3) : Vec3 :=
  ⟨(p.home.x - p.pos.x) * 12 * tOrder + r.x * 4 * (1 - tOrder),
   (p.home.y - p.pos.y) * 12 * tOrder + r.y * 4 * (1 - tOrder),
   (p.home.z - p.pos.z) * 12 * tOrder + r.z * 4 * (1 - tOrder)⟩

/-- Shared clamp: if |v| > 8 rescale v by 8/|v|.  Identical in both
backends (spd > 8 branch in the fallback, spd > max_speed in the shader). -/
noncomputable def clampVel (v : Vec3) : Vec3 :=
  if 8 < v.length then (8 / v.length) • v else v

/-- Fallback per-particle tick from webgl-fallback.js updatePhysics:
velocity damping + force, clamp, position advance, speed cached from the
post-clamp velocity, then the soft-boundary impulse.  Note the cached
speed slot is written BEFORE the boundary branch runs (source order:
particles[b+9] is assigned on the line before the distC check). -/
noncomputable def fbUpdate (dt tOrder : ℝ) (r : Vec3) (p : Particle) : Particle :=
  let v1 := fbDamping tOrder • p.vel + dt • fbForce p tOrder r
  let v2 := clampVel v1
  let pos' := p.pos + dt • v2
  let speedCached := v2.length
  let distC := pos'.length
  let v3 := if 4.5 < distC then v2 - ((distC - 4.5) * 2 * dt / distC) • pos' else v2
  { pos := pos', vel := v3, home := p.home, speed := speedCached }

/-- Uniform block of physics.wgsl (values are supplied by the host). -/
structure PhysUniforms where
  dt : ℝ
  tOrder : ℝ
  dampingOrdered : ℝ
  dampingChaos : ℝ
  noiseStrength : ℝ
  springK : ℝ

/-- WGSL mix(a, b, t) = a + (b - a) * t. -/
def wgslMix (a b t : ℝ) : ℝ := a + (b - a) * t

/-- GPU per-particle tick from physics.wgsl main: spring + noise forces,
damping mix, clamp at max_speed 8, position advance, soft boundary
(push = normalize(p) * (dist - 4.5) * 2, velocity -= push * dt), and the
speed cached AFTER the boundary correction.  The three randNormal draws
are the components of n. -/
noncomputable def gpuUpdate (u : PhysUniforms) (n : Vec3) (p : Particle) : Particle :=
  let springForce := (u.springK * u.tOrder) • (p.home - p.pos)
  let noiseForce : Vec3 :=
    ⟨n.x * u.noiseStrength * (1 - u.tOrder),
     n.y * u.noiseStrength * (1 - u.tOrder),
     n.z * u.noiseStrength * (1 - u.tOrder)⟩
  let damping := wgslMix u.dampingChaos u.dampingOrdered u.tOrder
  let v1 := damping • p.vel + u.dt • (springForce + noiseForce)
  let v2 := clampVel v1
  let pos' := p.pos + u.dt • v2
  let dist := pos'.length
  let v3 := if 4.5 < dist then v2 - u.dt • (((dist - 4.5) * 2 / dist) • pos') else v2
  { pos := pos', vel := v3, home := p.home, speed := v3.length }

/-- Post-clamp (pre-boundary) velocity of the fallback tick. -/
noncomputable def fbVelPreBoundary (dt tOrder : ℝ) (r : Vec3) (p : Particle) : Vec3 :=
  clampVel (fbDamping tOrder • p.vel + dt • fbForce p tOrder r)

/-- Post-clamp (pre-boundary) velocity of the GPU tick. -/
noncomputable def gpuVelPreBoundary (u : PhysUniforms) (n : Vec3) (p : Particle) : Vec3 :=
  clampVel (wgslMix u.dampingChaos u.dampingOrdered u.tOrder • p.vel +
    u.dt • ((u.springK * u.tOrder) • (p.home - p.pos) +
      ⟨n.x * u.noiseStrength * (1 - u.tOrder),
       n.y * u.noiseStrength * (1 - u.tOrder),
       n.z * u.noiseStrength * (1 - u.tOrder)⟩))

theorem Vec3.length_zero : (0 : Vec3).length = 0 := by
  show Vec3.length ⟨0, 0, 0⟩ = 0
  unfold Vec3.length Vec3.normSq
  norm_num

theorem Vec3.length_axis (a : ℝ) : Vec3.length ⟨a, 0, 0⟩ = |a| := by
  unfold Vec3.length Vec3.normSq
  have h : a ^ 2 + (0 : ℝ) ^ 2 + (0 : ℝ) ^ 2 = a ^ 2 := by ring
  rw [h, Real.sqrt_sq_eq_abs]

theorem clampVel_of_le (v : Vec3) (h : v.length ≤ 8) : clampVel v = v := by
  unfold clampVel
  rw [if_neg (not_lt.mpr h)]

/-- Clamped velocity never exceeds magnitude 8. -/
theorem clampVel_length_le (v : Vec3) : (clampVel v).length ≤ 8 := by
  unfold clampVel
  by_cases h : 8 < v.length
  · rw [if_pos h]
    have hL : (0 : ℝ) < v.length := lt_trans (by norm_num) h
    rw [Vec3.length_smul, abs_of_nonneg (le_of_lt (div_pos (by norm_num) hL)),
      div_mul_cancel₀ _ (ne_of_gt hL)]
  · rw [if_neg h]
    exact not_lt.mp h

/-! ## Claim C2: the boundary impulse can push the stored speed past 8 -/

/-- Counterexample for C2 as stated: with dt = 1 >= 0, t_order = 1 in [0,1],
a particle at rest at position (100,0,0) with home (100,0,0) and zero noise
draws, the velocity stored at the end of the fallback tick (after clamp AND
soft boundary) is (-191,0,0), of magnitude 191 > 8: the soft-boundary
impulse runs after the clamp and is not itself clamped. -/
theorem velocity_bound_cex :
    (0 : ℝ) ≤ 1 ∧ (0 : ℝ) ≤ 1 ∧ (1 : ℝ) ≤ 1 ∧
    8 < ((fbUpdate 1 1 0 ⟨⟨100, 0, 0⟩, 0, ⟨100, 0, 0⟩, 0⟩).vel).length := by
  refine ⟨by norm_num, by norm_num, le_refl 1, ?_⟩
  have hforce : fbForce ⟨⟨100, 0, 0⟩, 0, ⟨100, 0, 0⟩, 0⟩ 1 0 = (0 : Vec3) := by
    unfold fbForce
    simp
  have hv1 : fbDamping 1 • (0 : Vec3) + (1 : ℝ) • (0 : Vec3) = (0 : Vec3) := by
    simp
  have hv2 : clampVel (0 : Vec3) = 0 :=
    clampVel_of_le 0 (by rw [Vec3.length_zero]; norm_num)
  have hpos : (⟨100, 0, 0⟩ : Vec3) + (1 : ℝ) • (0 : Vec3) = ⟨100, 0, 0⟩ := by
    simp
  have hdist : Vec3.length ⟨100, 0, 0⟩ = 100 := by
    rw [Vec3.length_axis]
    norm_num
  have hv3 : (0 : Vec3) - (((100 : ℝ) - 4.5) * 2 * 1 / 100) • (⟨100, 0, 0⟩ : Vec3)
      = ⟨-191, 0, 0⟩ := by
    simp
    norm_num
  have hstep : fbUpdate 1 1 0 ⟨⟨100, 0, 0⟩, 0, ⟨100, 0, 0⟩, 0⟩ =
      { pos := ⟨100, 0, 0⟩, vel := ⟨-191, 0, 0⟩, home := ⟨100, 0, 0⟩, speed := 0 } := by
    unfold fbUpdate
    dsimp only
    rw [hforce, hv1, hv2, hpos, hdist,
      if_pos (by norm_num : (4.5 : ℝ) < 100), hv3, Vec3.length_zero]
  rw [hstep]
  show (8 : ℝ) < Vec3.length ⟨-191, 0, 0⟩
  rw [Vec3.length_axis]
  norm_num

/-- Claim C2 amended: the magnitude bound 8 holds for the velocity right
after the clamp (the velocity used to advance the position), in both
backends, for every dt, t_order, input state and noise draw; the
subsequent soft-boundary impulse can exceed it (see the counterexample). -/
theorem velocity_clamped_le_eight :
    (∀ (dt tOrder : ℝ) (r : Vec3) (p : Particle),
      (fbVelPreBoundary dt tOrder r p).length ≤ 8) ∧
    (∀ (u : PhysUniforms) (n : Vec3) (p : Particle),
      (gpuVelPreBoundary u n p).length ≤ 8) :=
  ⟨fun _ _ _ _ => clampVel_length_le _, fun _ _ _ => clampVel_length_le _⟩

/-! ## Claim C1: which velocity the cached speed reflects -/

/-- Counterexample for C1 as stated: for the fallback backend, a particle at
rest at (6,0,0) with home (6,0,0), dt = 0.05, t_order = 1 and zero noise
draws finishes the tick with stored speed 0 but post-boundary velocity
(-0.15,0,0) of magnitude 0.15: updatePhysics writes particles[b+9] before
the soft-boundary branch runs. -/
theorem fallback_speed_cached_before_boundary_cex :
    (fbUpdate (1/20) 1 0 ⟨⟨6, 0, 0⟩, 0, ⟨6, 0, 0⟩, 0⟩).speed ≠
    ((fbUpdate (1/20) 1 0 ⟨⟨6, 0, 0⟩, 0, ⟨6, 0, 0⟩, 0⟩).vel).length := by
  have hforce : fbForce ⟨⟨6, 0, 0⟩, 0, ⟨6, 0, 0⟩, 0⟩ 1 0 = (0 : Vec3) := by
    unfold fbForce
    simp
  have hv1 : fbDamping 1 • (0 : Vec3) + (1/20 : ℝ) • (0 : Vec3) = (0 : Vec3) := by
    simp
  have hv2 : clampVel (0 : Vec3) = 0 :=
    clampVel_of_le 0 (by rw [Vec3.length_zero]; norm_num)
  have hpos : (⟨6, 0, 0⟩ : Vec3) + (1/20 : ℝ) • (0 : Vec3) = ⟨6, 0, 0⟩ := by
    simp
  have hdist : Vec3.length ⟨6, 0, 0⟩ = 6 := by
    rw [Vec3.length_axis]
    norm_num
  have hv3 : (0 : Vec3) - (((6 : ℝ) - 4.5) * 2 * (1/20) / 6) • (⟨6, 0, 0⟩ : Vec3)
      = ⟨-(3/20), 0, 0⟩ := by
    simp
    norm_num
  have hstep : fbUpdate (1/20) 1 0 ⟨⟨6, 0, 0⟩, 0, ⟨6, 0, 0⟩, 0⟩ =
      { pos := ⟨6, 0, 0⟩, vel := ⟨-(3/20), 0, 0⟩, home := ⟨6, 0, 0⟩, speed := 0 } := by
    unfold fbUpdate
    dsimp only
    rw [hforce, hv1, hv2, hpos, hdist,
      if_pos (by norm_num : (4.5 : ℝ) < 6), hv3, Vec3.length_zero]
  rw [hstep]
  show (0 : ℝ) ≠ Vec3.length ⟨-(3/20), 0, 0⟩
  rw [Vec3.length_axis, abs_neg, abs_of_nonneg (by norm_num : (0 : ℝ) ≤ 3/20)]
  norm_num

/-- Claim C1 amended: the GPU shader caches speed from the velocity it
stores back (post-boundary), while the fallback caches speed from the
post-clamp, pre-boundary velocity; only the GPU path satisfies the claim
for every state. -/
theorem speed_cache_semantics :
    (∀ (u : PhysUniforms) (n : Vec3) (p : Particle),
      (gpuUpdate u n p).speed = ((gpuUpdate u n p).vel).length) ∧
    (∀ (dt tOrder : ℝ) (r : Vec3) (p : Particle),
      (fbUpdate dt tOrder r p).speed = (fbVelPreBoundary dt tOrder r p).length) :=
  ⟨fun _ _ _ => rfl, fun _ _ _ _ => rfl⟩

/-! ## Claim C10: the fallback histogram sums to the particle count -/

/-- Fallback updatePhysics over the particle array: particle i consumes the
i-th triple of LCG draws (the stream is consumed sequentially, three draws
per particle). -/
noncomputable def updateParticles (dt tOrder : ℝ) (noise : ℕ → Vec3) :
    ℕ → List Particle → List Particle
  | _, [] => []
  | i, p :: rest => fbUpdate dt tOrder (noise i) p :: updateParticles dt tOrder noise (i + 1) rest

/-- Histogram built at the end of updatePhysics: hist[bin]++ for each
particle's cached speed slot. -/
noncomputable def histCount (ps : List Particle) (b : ℤ) : ℕ :=
  (ps.map (fun p => fallbackBin p.speed)).count b

theorem updateParticles_length (dt tOrder : ℝ) (noise : ℕ → Vec3) (i : ℕ)
    (ps : List Particle) : (updateParticles dt tOrder noise i ps).length = ps.length := by
  induction ps generalizing i with
  | nil => rfl
  | cons p rest ih =>
    show (updateParticles dt tOrder noise (i + 1) rest).length + 1 = rest.length + 1
    rw [ih]

theorem updateParticles_speed_nonneg (dt tOrder : ℝ) (noise : ℕ → Vec3) (i : ℕ)
    (ps : List Particle) (q : Particle) (hq : q ∈ updateParticles dt tOrder noise i ps) :
    0 ≤ q.speed := by
  induction ps generalizing i with
  | nil => cases hq
  | cons p rest ih =>
    rcases List.mem_cons.mp hq with h | h
    · rw [h]
      exact Vec3.length_nonneg _
    · exact ih (i + 1) h

theorem fallbackBin_nonneg (s : ℝ) (hs : 0 ≤ s) : 0 ≤ fallbackBin s := by
  unfold fallbackBin
  exact le_min (Int.floor_nonneg.mpr (by positivity)) (by norm_num)

theorem fallbackBin_lt (s : ℝ) : fallbackBin s < 64 := by
  unfold fallbackBin
  exact lt_of_le_of_lt (min_le_right _ _) (by norm_num)

/-- Summing per-bin counts over bins 0..63 recovers the list length when
every element lies in that range. -/
theorem count_sum_range_eq_length (l : List ℤ) (h : ∀ x ∈ l, 0 ≤ x ∧ x < 64) :
    (∑ b ∈ Finset.range 64, l.count (b : ℤ)) = l.length := by
  induction l with
  | nil => simp
  | cons a t ih =>
    obtain ⟨ha0, ha64⟩ := h a (List.mem_cons_self a t)
    have htoNat : a.toNat < 64 := by omega
    have hmem : a.toNat ∈ Finset.range 64 := Finset.mem_range.mpr htoNat
    have hcast : ∀ b : ℕ, (a = (b : ℤ)) ↔ (b = a.toNat) := by
      intro b
      constructor
      · intro hb
        omega
      · intro hb
        omega
    calc (∑ b ∈ Finset.range 64, (a :: t).count (b : ℤ))
        = ∑ b ∈ Finset.range 64, (t.count (b : ℤ) + if a = (b : ℤ) then 1 else 0) := by
          apply Finset.sum_congr rfl
          intro b _
          simp only [List.count_cons, beq_iff_eq]
      _ = (∑ b ∈ Finset.range 64, t.count (b : ℤ)) +
            ∑ b ∈ Finset.range 64, (if a = (b : ℤ) then 1 else 0) := Finset.sum_add_distrib
      _ = t.length + ∑ b ∈ Finset.range 64, (if b = a.toNat then 1 else 0) := by
          have hsum2 : (∑ b ∈ Finset.range 64, (if a = (b : ℤ) then (1 : ℕ) else 0)) =
              ∑ b ∈ Finset.range 64, (if b = a.toNat then 1 else 0) :=
            Finset.sum_congr rfl (fun b _ => if_congr (hcast b) rfl rfl)
          rw [ih (fun x hx => h x (List.mem_cons_of_mem a hx)), hsum2]
      _ = t.length + 1 := by
          rw [Finset.sum_ite_eq' (Finset.range 64) a.toNat (fun _ => 1), if_pos hmem]
      _ = (a :: t).length := by
          rw [List.length_cons]

/-- Claim C10: after any call of the fallback updatePhysics on a 512-element
particle array, the 64-entry histogram sums to exactly 512 (so the total
the entropy meter receives is nonzero), and no mass falls outside bins
0..63: the min-with-63 guard and the nonnegative cached speeds keep every
bin index in range. -/
theorem fallback_histogram_total (dt tOrder : ℝ) (noise : ℕ → Vec3) (i0 : ℕ)
    (ps : List Particle) (h : ps.length = 512) :
    (∑ b ∈ Finset.range 64, histCount (updateParticles dt tOrder noise i0 ps) (b : ℤ)) = 512 ∧
    ∀ b : ℤ, b < 0 ∨ 64 ≤ b → histCount (updateParticles dt tOrder noise i0 ps) b = 0 := by
  have hbounds : ∀ x ∈ (updateParticles dt tOrder noise i0 ps).map
      (fun p => fallbackBin p.speed), 0 ≤ x ∧ x < 64 := by
    intro x hx
    obtain ⟨q, hq, hxq⟩ := List.mem_map.mp hx
    have hsp := updateParticles_speed_nonneg dt tOrder noise i0 ps q hq
    exact hxq ▸ ⟨fallbackBin_nonneg _ hsp, fallbackBin_lt _⟩
  constructor
  · have hsum := count_sum_range_eq_length _ hbounds
    have hlen : ((updateParticles dt tOrder noise i0 ps).map
        (fun p => fallbackBin p.speed)).length = 512 := by
      rw [List.length_map, updateParticles_length, h]
    unfold histCount
    rw [hsum, hlen]
  · intro b hb
    unfold histCount
    rw [List.count_eq_zero]
    intro hmem
    obtain ⟨h0, h64⟩ := hbounds b hmem
    omega

/-- Witness for C10 on 512 default particles with dt = t = 0 and the zero
noise stream. -/
theorem fallback_histogram_total_witness :
    (∑ b ∈ Finset.range 64,
      histCount (updateParticles 0 0 (fun _ => 0) 0
        (List.replicate 512 ⟨0, 0, 0, 0⟩)) (b : ℤ)) = 512 :=
  (fallback_histogram_total 0 0 (fun _ => 0) 0 _ (List.length_replicate 512 _)).1

/-! ## Density splat: density-splat.wgsl -/

/-- Uniform block of density-splat.wgsl. -/
structure DensityUniforms where
  gridMin : Vec3
  gridMax : Vec3
  gridRes : ℕ
  splatRadius : ℝ
  splatStrength : ℝ

/-- worldToGrid(pos) = (pos - grid_min) / (grid_max - grid_min) * grid_res,
componentwise. -/
noncomputable def worldToGrid (u : DensityUniforms) (pos : Vec3) : Vec3 :=
  ⟨(pos.x - u.gridMin.x) / (u.gridMax.x - u.gridMin.x) * u.gridRes,
   (pos.y - u.gridMin.y) / (u.gridMax.y - u.gridMin.y) * u.gridRes,
   (pos.z - u.gridMin.z) / (u.gridMax.z - u.gridMin.z) * u.gridRes⟩

/-- Amount the splat loop of density-splat.wgsl adds to grid cell
(cx,cy,cz) for one particle: the triple loop visits exactly the cells whose
offset from the floored grid position is within r = ceil(splat_radius) on
every axis, skips out-of-bounds cells, and otherwise adds
u32(weight * splat_strength * speed_factor * 1000) with the Gaussian
weight exp(-dist^2/(2 sigma^2)), sigma = splat_radius * 0.5 and
speed_factor = 1 + speed * 0.3.  (The guard contribution > 0u only skips
adding zero, which leaves the accumulated value unchanged.) -/
noncomputable def splatContribution (u : DensityUniforms) (p : Particle)
    (cx cy cz : ℤ) : ℕ :=
  let gridPos := worldToGrid u p.pos
  let r : ℤ := ⌈u.splatRadius⌉
  if (-r ≤ cx - ⌊gridPos.x⌋ ∧ cx - ⌊gridPos.x⌋ ≤ r ∧
      -r ≤ cy - ⌊gridPos.y⌋ ∧ cy - ⌊gridPos.y⌋ ≤ r ∧
      -r ≤ cz - ⌊gridPos.z⌋ ∧ cz - ⌊gridPos.z⌋ ≤ r) ∧
     (0 ≤ cx ∧ cx < (u.gridRes : ℤ) ∧ 0 ≤ cy ∧ cy < (u.gridRes : ℤ) ∧
      0 ≤ cz ∧ cz < (u.gridRes : ℤ)) then
    let cellCenter : Vec3 := ⟨(cx : ℝ) + 0.5, (cy : ℝ) + 0.5, (cz : ℝ) + 0.5⟩
    let dist := (gridPos - cellCenter).length
    let sigma := u.splatRadius * 0.5
    let weight := Real.exp (-(dist * dist) / (2 * sigma * sigma))
    (⌊weight * u.splatStrength * (1 + p.speed * 0.3) * 1000⌋).toNat
  else 0

/-- Splat uniforms for the concrete C3 instances: identity world-to-grid
mapping (grid [0,64)^3 at resolution 64), splat_radius 2, splat_strength
1.5 as in the spec. -/
noncomputable def splatUniformsCex : DensityUniforms :=
  { gridMin := ⟨0, 0, 0⟩, gridMax := ⟨64, 64, 64⟩, gridRes := 64,
    splatRadius := 2, splatStrength := 3/2 }

/-- Stationary particle at the center of grid cell (32,32,32). -/
noncomputable def splatParticleCex : Particle :=
  { pos := ⟨32.5, 32.5, 32.5⟩, vel := 0, home := ⟨32.5, 32.5, 32.5⟩, speed := 0 }

theorem worldToGrid_cex :
    worldToGrid splatUniformsCex splatParticleCex.pos = ⟨32.5, 32.5, 32.5⟩ := by
  unfold worldToGrid splatUniformsCex splatParticleCex
  norm_num

/-- Counterexample for C3 as stated: the grid cell (34,33,32) lies at
Euclidean distance sqrt 5 > 2 = splat_radius from the stationary particle
at the center of cell (32,32,32), yet receives a nonzero contribution
(floor(1500 * exp(-5/2)) = 123): the loop covers a Chebyshev box and the
Gaussian weight is not truncated at the Euclidean radius. -/
theorem splat_euclidean_distance_cex :
    2 < ((worldToGrid splatUniformsCex splatParticleCex.pos) -
      ⟨(34 : ℝ) + 0.5, (33 : ℝ) + 0.5, (32 : ℝ) + 0.5⟩).length ∧
    splatContribution splatUniformsCex splatParticleCex 34 33 32 ≠ 0 := by
  have hdiff : (worldToGrid splatUniformsCex splatParticleCex.pos) -
      ⟨(34 : ℝ) + 0.5, (33 : ℝ) + 0.5, (32 : ℝ) + 0.5⟩ = ⟨-2, -1, 0⟩ := by
    rw [worldToGrid_cex]
    simp
    norm_num
  have hnormSq : (Vec3.normSq ⟨-2, -1, 0⟩ : ℝ) = 5 := by
    unfold Vec3.normSq
    norm_num
  have hlen : (Vec3.length ⟨-2, -1, 0⟩ : ℝ) = Real.sqrt 5 := by
    unfold Vec3.length
    rw [hnormSq]
  have hexp : Real.exp (5/2) < 1500 := by
    have h1 : Real.exp (5/2) ≤ Real.exp 3 := Real.exp_le_exp.mpr (by norm_num)
    have h3 : Real.exp 3 = Real.exp 1 * Real.exp 1 * Real.exp 1 := by
      rw [show (3 : ℝ) = 1 + 1 + 1 by norm_num, Real.exp_add, Real.exp_add]
    have he := Real.exp_one_lt_d9
    have hp := Real.exp_pos 1
    nlinarith
  constructor
  · rw [hdiff, hlen]
    rw [show (2 : ℝ) = Real.sqrt 4 by rw [show (4:ℝ) = 2^2 by norm_num, Real.sqrt_sq]; norm_num]
    exact Real.sqrt_lt_sqrt (by norm_num) (by norm_num)
  · unfold splatContribution
    rw [worldToGrid_cex]
    have hfloor : ⌊(32.5 : ℝ)⌋ = 32 := by
      apply Int.floor_eq_iff.mpr
      norm_num
    have hceil : ⌈(splatUniformsCex.splatRadius : ℝ)⌉ = 2 := by
      show ⌈(2 : ℝ)⌉ = 2
      norm_num
    rw [hceil]
    dsimp only
    rw [hfloor, if_pos (by norm_num [splatUniformsCex])]
    have hdist : (Vec3.mk 32.5 32.5 32.5 - ⟨(34 : ℤ) + 0.5, (33 : ℤ) + 0.5, (32 : ℤ) + 0.5⟩).length
        = Real.sqrt 5 := by
      have : (Vec3.mk (32.5 : ℝ) 32.5 32.5 - ⟨(34 : ℤ) + 0.5, (33 : ℤ) + 0.5, (32 : ℤ) + 0.5⟩)
          = ⟨-2, -1, 0⟩ := by
        simp
        norm_num
      rw [this, hlen]
    rw [hdist]
    have hss : Real.sqrt 5 * Real.sqrt 5 = 5 := Real.mul_self_sqrt (by norm_num)
    rw [hss]
    have harg : -(5 : ℝ) / (2 * (splatUniformsCex.splatRadius * 0.5) *
        (splatUniformsCex.splatRadius * 0.5)) = -(5/2) := by
      show -(5 : ℝ) / (2 * ((2 : ℝ) * 0.5) * ((2 : ℝ) * 0.5)) = -(5/2)
      norm_num
    rw [harg]
    have hval : (1 : ℤ) ≤ ⌊Real.exp (-(5/2)) * splatUniformsCex.splatStrength *
        (1 + splatParticleCex.speed * 0.3) * 1000⌋ := by
      apply Int.le_floor.mpr
      show ((1 : ℤ) : ℝ) ≤ Real.exp (-(5/2)) * (3/2) * (1 + 0 * 0.3) * 1000
      rw [Real.exp_neg]
      have hpos := Real.exp_pos (5/2 : ℝ)
      have hinv : (0 : ℝ) < (Real.exp (5/2))⁻¹ := inv_pos.mpr hpos
      have hcancel : Real.exp (5/2) * (Real.exp (5/2))⁻¹ = 1 := mul_inv_cancel₀ (ne_of_gt hpos)
      push_cast
      nlinarith [hexp, hinv, hcancel]
    intro hzero
    rw [Int.toNat_eq_zero] at hzero
    omega

/-- Claim C3 amended: a single splat adds exactly zero to every grid cell
whose offset from the particle's floored grid cell exceeds
ceil(splat_radius) on some axis (Chebyshev distance > 2 for radius 2.0):
the triple loop never visits such cells, so all accumulated density lies in
the (2r+1)^3 Chebyshev neighborhood.  Cells inside that box but at
Euclidean distance > splat_radius can still receive nonzero contributions
(see the counterexample). -/
theorem splat_outside_box_zero (u : DensityUniforms) (p : Particle) (cx cy cz : ℤ)
    (h : ⌈u.splatRadius⌉ < ((cx - ⌊(worldToGrid u p.pos).x⌋).natAbs : ℤ) ∨
         ⌈u.splatRadius⌉ < ((cy - ⌊(worldToGrid u p.pos).y⌋).natAbs : ℤ) ∨
         ⌈u.splatRadius⌉ < ((cz - ⌊(worldToGrid u p.pos).z⌋).natAbs : ℤ)) :
    splatContribution u p cx cy cz = 0 := by
  unfold splatContribution
  rw [if_neg]
  intro hcond
  obtain ⟨⟨h1, h2, h3, h4, h5, h6⟩, _⟩ := hcond
  rcases h with h | h | h <;> omega

/-- Witness for C3's amended theorem: cell (36,32,32), three cells to the
right of the particle's floored cell (32,32,32), receives zero. -/
theorem splat_outside_box_zero_witness :
    splatContribution splatUniformsCex splatParticleCex 36 32 32 = 0 := by
  apply splat_outside_box_zero
  left
  rw [worldToGrid_cex]
  have hfloor : ⌊(32.5 : ℝ)⌋ = 32 := by
    apply Int.floor_eq_iff.mpr
    norm_num
  have hceil : ⌈splatUniformsCex.splatRadius⌉ = 2 := by
    show ⌈(2 : ℝ)⌉ = 2
    norm_num
  rw [hceil]
  dsimp only
  rw [hfloor]
  norm_num

/-! ## BCC lattice: webgl-fallback.js _initParticles

For PARTICLE_COUNT = 512 the source computes side = ceil(cbrt(512/2)) = 7
(6^3 = 216 < 256 <= 343 = 7^3) and spacing = 5.0 / side = 5/7, then loops
z, y, x over 0..6, emitting per cell a corner atom at
((i - side/2 + 0.5) * spacing) and a body-center atom at
((i - side/2 + 1.0) * spacing) on each axis, stopping once 512 particles
are placed; that stream truncated at 512 is exactly take 512 of the full
686-element enumeration.  Coordinates are exact rationals here. -/

/-- Rational component triple for lattice home positions. -/
structure QVec3 where
  x : ℚ
  y : ℚ
  z : ℚ
deriving DecidableEq

instance : Neg QVec3 := ⟨fun v => ⟨-v.x, -v.y, -v.z⟩⟩

/-- Corner-atom axis coordinate (i - side/2 + 0.5) * spacing, side = 7,
spacing = 5/7. -/
def cornerCoord (a : ℕ) : ℚ := ((a : ℚ) - 7/2 + 1/2) * (5/7)

/-- Body-center axis coordinate (i - side/2 + 1.0) * spacing. -/
def bodyCoord (a : ℕ) : ℚ := ((a : ℚ) - 7/2 + 1) * (5/7)

/-- Justification that the loop bound side = ceil(cbrt(512 / 2)) is 7. -/
theorem bccSide_eq_seven : 6 ^ 3 < 512 / 2 ∧ 512 / 2 ≤ 7 ^ 3 := by decide

/-- Corner atom of cell (z,y,x). -/
def bccCorner (z y x : ℕ) : QVec3 := ⟨cornerCoord x, cornerCoord y, cornerCoord z⟩

/-- Body-center atom of cell (z,y,x). -/
def bccBody (z y x : ℕ) : QVec3 := ⟨bodyCoord x, bodyCoord y, bodyCoord z⟩

/-- The two atoms a cell emits, in emission order. -/
def bccCell (z y x : ℕ) : List QVec3 := [bccCorner z y x, bccBody z y x]

/-- Inner x loop. -/
def bccRow (z y : ℕ) : List QVec3 := (List.range 7).flatMap (bccCell z y)

/-- Middle y loop. -/
def bccLayer (z : ℕ) : List QVec3 := (List.range 7).flatMap (bccRow z)

/-- Full z,y,x enumeration of all 686 candidate atoms. -/
def bccAll : List QVec3 := (List.range 7).flatMap bccLayer

/-- The 512 home positions actually placed: the stream truncated by the
idx < PARTICLE_COUNT guards. -/
def bccHomes : List QVec3 := bccAll.take 512

theorem cornerCoord_inj {a b : ℕ} (h : cornerCoord a = cornerCoord b) : a = b := by
  unfold cornerCoord at h
  have h1 : ((a : ℚ) - 7/2 + 1/2) = ((b : ℚ) - 7/2 + 1/2) :=
    mul_right_cancel₀ (by norm_num : (5/7 : ℚ) ≠ 0) h
  have h2 : (a : ℚ) = b := by linarith
  exact_mod_cast h2

theorem bodyCoord_inj {a b : ℕ} (h : bodyCoord a = bodyCoord b) : a = b := by
  unfold bodyCoord at h
  have h1 : ((a : ℚ) - 7/2 + 1) = ((b : ℚ) - 7/2 + 1) :=
    mul_right_cancel₀ (by norm_num : (5/7 : ℚ) ≠ 0) h
  have h2 : (a : ℚ) = b := by linarith
  exact_mod_cast h2

/-- Corner coordinates are integer multiples of the spacing plus -3 while
body coordinates sit at half-integers, so the two families never share an
axis coordinate. -/
theorem cornerCoord_ne_bodyCoord (a b : ℕ) : cornerCoord a ≠ bodyCoord b := by
  intro h
  unfold cornerCoord bodyCoord at h
  have h1 : ((a : ℚ) - 7/2 + 1/2) = ((b : ℚ) - 7/2 + 1) :=
    mul_right_cancel₀ (by norm_num : (5/7 : ℚ) ≠ 0) h
  have h' : (2 * a : ℚ) = 2 * b + 1 := by linarith
  have h2 : (2 * a : ℕ) = 2 * b + 1 := by exact_mod_cast h'
  omega

theorem mem_bccRow {v : QVec3} {z y : ℕ} (h : v ∈ bccRow z y) :
    ∃ x, v = bccCorner z y x ∨ v = bccBody z y x := by
  obtain ⟨x, _, hx⟩ := List.mem_flatMap.mp h
  simp only [bccCell, List.mem_cons, List.not_mem_nil, or_false] at hx
  exact ⟨x, hx⟩

theorem mem_bccLayer {v : QVec3} {z : ℕ} (h : v ∈ bccLayer z) :
    ∃ y x, v = bccCorner z y x ∨ v = bccBody z y x := by
  obtain ⟨y, _, hy⟩ := List.mem_flatMap.mp h
  obtain ⟨x, hx⟩ := mem_bccRow hy
  exact ⟨y, x, hx⟩

theorem mem_bccLayer_z {v : QVec3} {z : ℕ} (h : v ∈ bccLayer z) :
    v.z = cornerCoord z ∨ v.z = bodyCoord z := by
  obtain ⟨y, x, hx⟩ := mem_bccLayer h
  rcases hx with rfl | rfl
  · exact Or.inl rfl
  · exact Or.inr rfl

theorem bccCell_disjoint {z y x x' : ℕ} (hne : x ≠ x') :
    List.Disjoint (bccCell z y x) (bccCell z y x') := by
  intro v hv hv'
  simp only [bccCell, List.mem_cons, List.not_mem_nil, or_false] at hv hv'
  rcases hv with rfl | rfl <;> rcases hv' with h | h
  · exact hne (cornerCoord_inj (congrArg QVec3.x h))
  · exact cornerCoord_ne_bodyCoord x x' (congrArg QVec3.x h)
  · exact cornerCoord_ne_bodyCoord x' x (congrArg QVec3.x h).symm
  · exact hne (bodyCoord_inj (congrArg QVec3.x h))

theorem bccRow_nodup (z y : ℕ) : (bccRow z y).Nodup := by
  unfold bccRow
  rw [List.nodup_flatMap]
  constructor
  · intro x _
    show ([bccCorner z y x, bccBody z y x]).Nodup
    refine List.nodup_cons.mpr ⟨?_, List.nodup_singleton _⟩
    intro hmem
    rw [List.mem_singleton] at hmem
    exact cornerCoord_ne_bodyCoord x x (congrArg QVec3.x hmem)
  · exact (List.pairwise_lt_range 7).imp (fun hlt => bccCell_disjoint (Nat.ne_of_lt hlt))

theorem bccRow_disjoint {z y y' : ℕ} (hne : y ≠ y') :
    List.Disjoint (bccRow z y) (bccRow z y') := by
  intro v hv hv'
  obtain ⟨x, hx⟩ := mem_bccRow hv
  obtain ⟨x', hx'⟩ := mem_bccRow hv'
  rcases hx with rfl | rfl <;> rcases hx' with h | h
  · exact hne (cornerCoord_inj (congrArg QVec3.y h))
  · exact cornerCoord_ne_bodyCoord y y' (congrArg QVec3.y h)
  · exact cornerCoord_ne_bodyCoord y' y (congrArg QVec3.y h).symm
  · exact hne (bodyCoord_inj (congrArg QVec3.y h))

theorem bccLayer_nodup (z : ℕ) : (bccLayer z).Nodup := by
  unfold bccLayer
  rw [List.nodup_flatMap]
  exact ⟨fun y _ => bccRow_nodup z y,
    (List.pairwise_lt_range 7).imp (fun hlt => bccRow_disjoint (Nat.ne_of_lt hlt))⟩

theorem bccLayer_disjoint {z z' : ℕ} (hne : z ≠ z') :
    List.Disjoint (bccLayer z) (bccLayer z') := by
  intro v hv hv'
  obtain ⟨y, x, hx⟩ := mem_bccLayer hv
  obtain ⟨y', x', hx'⟩ := mem_bccLayer hv'
  rcases hx with rfl | rfl <;> rcases hx' with h | h
  · exact hne (cornerCoord_inj (congrArg QVec3.z h))
  · exact cornerCoord_ne_bodyCoord z z' (congrArg QVec3.z h)
  · exact cornerCoord_ne_bodyCoord z' z (congrArg QVec3.z h).symm
  · exact hne (bodyCoord_inj (congrArg QVec3.z h))

theorem bccAll_nodup : bccAll.Nodup := by
  unfold bccAll
  rw [List.nodup_flatMap]
  exact ⟨fun z _ => bccLayer_nodup z,
    (List.pairwise_lt_range 7).imp (fun hlt => bccLayer_disjoint (Nat.ne_of_lt hlt))⟩

theorem bccRow_length (z y : ℕ) : (bccRow z y).length = 14 := by
  unfold bccRow
  rw [List.length_flatMap, show List.range 7 = [0, 1, 2, 3, 4, 5, 6] by decide]
  simp [bccCell]

theorem bccLayer_length (z : ℕ) : (bccLayer z).length = 98 := by
  unfold bccLayer
  rw [List.length_flatMap, show List.range 7 = [0, 1, 2, 3, 4, 5, 6] by decide]
  simp [Function.comp, bccRow_length]

theorem bccAll_length : bccAll.length = 686 := by
  unfold bccAll
  rw [List.length_flatMap, show List.range 7 = [0, 1, 2, 3, 4, 5, 6] by decide]
  simp [Function.comp, bccLayer_length]

theorem bccHomes_length : bccHomes.length = 512 := by
  unfold bccHomes
  rw [List.length_take, bccAll_length]
  decide

theorem bccHomes_nodup : bccHomes.Nodup :=
  List.Nodup.sublist (List.take_sublist 512 bccAll) bccAll_nodup

/-- Decomposition of the truncated stream: five full layers (490 atoms)
followed by the first 22 atoms of layer 5; layer 6 is never reached. -/
theorem bccHomes_decomp :
    bccHomes = (List.range 5).flatMap bccLayer ++ (bccLayer 5).take 22 := by
  unfold bccHomes bccAll
  rw [show (7 : ℕ) = 5 + 2 from rfl, List.range_add, List.flatMap_append]
  have hlenA : ((List.range 5).flatMap bccLayer).length = 490 := by
    rw [List.length_flatMap, show List.range 5 = [0, 1, 2, 3, 4] by decide]
    simp [Function.comp, bccLayer_length]
  have h512 : (512 : ℕ) = ((List.range 5).flatMap bccLayer).length + 22 := by
    rw [hlenA]
  have hmap : (List.range 2).map (fun x => 5 + x) = [5, 6] := by decide
  rw [h512, List.take_append, hmap]
  have htail : List.take 22 ([5, 6].flatMap bccLayer) = List.take 22 (bccLayer 5) := by
    show List.take 22 (bccLayer 5 ++ (bccLayer 6 ++ [])) = List.take 22 (bccLayer 5)
    rw [List.take_append_eq_append_take]
    have h22 : 22 - (bccLayer 5).length = 0 := by
      rw [bccLayer_length]
    rw [h22, List.take_zero, List.append_nil]
  rw [htail]

theorem bccHomes_z_le {v : QVec3} (h : v ∈ bccHomes) : v.z ≤ 25/14 := by
  have hbody5 : bodyCoord 5 = 25/14 := by
    unfold bodyCoord
    norm_num
  rw [bccHomes_decomp] at h
  rcases List.mem_append.mp h with h | h
  · obtain ⟨z, hz, hmem⟩ := List.mem_flatMap.mp h
    have hz5 : z < 5 := List.mem_range.mp hz
    have hzq : (z : ℚ) ≤ 4 := by exact_mod_cast (by omega : z ≤ 4)
    rcases mem_bccLayer_z hmem with he | he <;> rw [he]
    · unfold cornerCoord
      nlinarith
    · unfold bodyCoord
      nlinarith
  · have h5 := List.take_subset 22 _ h
    rcases mem_bccLayer_z h5 with he | he <;> rw [he]
    · unfold cornerCoord
      norm_num
    · rw [hbody5]

theorem bccCorner000_mem : bccCorner 0 0 0 ∈ bccHomes := by
  rw [bccHomes_decomp]
  apply List.mem_append_left
  apply List.mem_flatMap.mpr
  refine ⟨0, by simp, ?_⟩
  apply List.mem_flatMap.mpr
  refine ⟨0, by simp [bccLayer], ?_⟩
  show bccCorner 0 0 0 ∈ bccRow 0 0
  apply List.mem_flatMap.mpr
  refine ⟨0, by simp, ?_⟩
  simp [bccCell]

/-- Counterexample for the symmetry part of C4: the first placed particle
has home (-15/7,-15/7,-15/7) but no placed home comes within 5/14 of its
mirror image (15/7,15/7,15/7): every placed z-coordinate is at most 25/14
because the truncation at 512 particles stops in layer z = 5 and never
reaches layer z = 6.  This is a gross asymmetry, far beyond any floating
tolerance. -/
theorem bcc_not_symmetric_cex :
    bccCorner 0 0 0 ∈ bccHomes ∧
    (-(bccCorner 0 0 0)).z = 15/7 ∧
    (∀ v ∈ bccHomes, v.z ≤ 25/14) ∧
    (25/14 : ℚ) < 15/7 := by
  refine ⟨bccCorner000_mem, ?_, fun v hv => bccHomes_z_le hv, by norm_num⟩
  show -(cornerCoord 0) = 15/7
  unfold cornerCoord
  norm_num

/-- Claim C4 amended: the fallback BCC initializer generates exactly 512
particles with pairwise distinct home positions, but the set of homes is
NOT symmetric about the origin: placement stops after 512 of the 686
candidate atoms, truncating inside layer z = 5. -/
theorem bcc_lattice_count_distinct_asymmetric :
    bccHomes.length = 512 ∧ bccHomes.Nodup ∧
    ¬ (∀ v ∈ bccHomes, -v ∈ bccHomes) := by
  refine ⟨bccHomes_length, bccHomes_nodup, ?_⟩
  intro hsym
  have h1 := hsym (bccCorner 0 0 0) bccCorner000_mem
  have h2 := bccHomes_z_le h1
  have h3 : (-(bccCorner 0 0 0)).z = 15/7 := by
    show -(cornerCoord 0) = 15/7
    unfold cornerCoord
    norm_num
  rw [h3] at h2
  norm_num at h2

/-! ## Claim C9: spring relaxation at t_order = 1

With t_order = 1 the noise terms of both integrators are multiplied by
(1 - t_order) = 0, so each particle follows the deterministic damped-spring
step: v1 = 0.97 v - 0.192 e (damping 0.97, spring 12 * dt, dt = 0.016),
clamp, position advance, soft boundary.  Convergence is proved through the
Lyapunov functional 6|e|^2 + |v|^2/2 + ((|pos|-4.5)+)^2, which contracts by
at least the factor 499/500 per step once the state is inside an invariant
region reached after the first step. -/

/-- Damped spring velocity before the clamp at t_order = 1:
0.97 v - (12 * 0.016) e, with e the offset from home. -/
noncomputable def springVel (e v : Vec3) : Vec3 :=
  (0.97 : ℝ) • v - (0.192 : ℝ) • e

theorem fbDamping_one : fbDamping 1 = 0.97 := by
  unfold fbDamping
  norm_num

/-- At t_order = 1 the fallback pre-clamp velocity is the damped spring
velocity for any noise draws. -/
theorem fbV1_eq (p : Particle) (r : Vec3) :
    fbDamping 1 • p.vel + (0.016 : ℝ) • fbForce p 1 r =
      springVel (p.pos - p.home) p.vel := by
  unfold fbForce springVel fbDamping
  ext <;> simp <;> ring

theorem Vec3.normSq_add_smul (c : ℝ) (e w : Vec3) :
    (e + c • w).normSq = e.normSq + 2 * c * (e.dot w) + c ^ 2 * w.normSq := by
  unfold Vec3.normSq Vec3.dot
  simp
  ring

theorem Vec3.normSq_smul (c : ℝ) (w : Vec3) : (c • w).normSq = c ^ 2 * w.normSq := by
  unfold Vec3.normSq
  simp
  ring

theorem Vec3.normSq_sub_smul (c : ℝ) (v w : Vec3) :
    (v - c • w).normSq = v.normSq - 2 * c * (v.dot w) + c ^ 2 * w.normSq := by
  unfold Vec3.normSq Vec3.dot
  simp
  ring

/-- Per-axis energy decay of the unclamped damped-spring step: the
quadratic form 6 e'^2 + v'^2/2 loses at least 0.018 e^2 + 0.0277 v^2. -/
theorem axis_decay (a b : ℝ) :
    6 * (a + 0.016 * (0.97 * b - 0.192 * a)) ^ 2 + (0.97 * b - 0.192 * a) ^ 2 / 2
      ≤ 6 * a ^ 2 + b ^ 2 / 2 - (18/1000) * a ^ 2 - (277/10000) * b ^ 2 := by
  nlinarith [sq_nonneg (366579 * a + 279360 * b), sq_nonneg a, sq_nonneg b]

/-- Three-dimensional unclamped energy decay. -/
theorem noclamp_decay (e v : Vec3) :
    6 * (e + (0.016 : ℝ) • springVel e v).normSq + (springVel e v).normSq / 2
      ≤ 6 * e.normSq + v.normSq / 2 - (18/1000) * e.normSq - (277/10000) * v.normSq := by
  have hx := axis_decay e.x v.x
  have hy := axis_decay e.y v.y
  have hz := axis_decay e.z v.z
  unfold springVel Vec3.normSq
  simp only [Vec3.smul_def, Vec3.sub_def, Vec3.add_def]
  nlinarith [hx, hy, hz]

/-- Representation of the clamp as a scaling by some factor in [0,1]. -/
theorem clampVel_eq_smul (w : Vec3) :
    ∃ c : ℝ, clampVel w = c • w ∧ 0 ≤ c ∧ c ≤ 1 ∧ (w.length ≤ 8 → c = 1) := by
  unfold clampVel
  by_cases hw : 8 < w.length
  · refine ⟨8 / w.length, if_pos hw, ?_, ?_, ?_⟩
    · positivity
    · rw [div_le_one (lt_trans (by norm_num) hw)]
      linarith
    · intro h
      exact absurd h (not_le.mpr hw)
  · refine ⟨1, ?_, by norm_num, le_refl 1, fun _ => rfl⟩
    rw [if_neg hw]
    ext <;> simp

/-- Clamping can only decrease the stepped energy: comparing the stepped
quadratic form using the clamped velocity against the unclamped one, valid
whenever the offset satisfies |e|^2 <= 400. -/
theorem Vec3.one_smul (v : Vec3) : (1 : ℝ) • v = v := by
  ext <;> simp

theorem clamp_compare (e w : Vec3) (hE : e.normSq ≤ 400) :
    6 * (e + (0.016 : ℝ) • clampVel w).normSq + (clampVel w).normSq / 2
      ≤ 6 * (e + (0.016 : ℝ) • w).normSq + w.normSq / 2 := by
  obtain ⟨c, hcw, hc0, hc1, hcid⟩ := clampVel_eq_smul w
  rcases le_or_lt w.length 8 with hw | hw
  · rw [hcw, hcid hw, Vec3.one_smul]
  · rw [hcw]
    have hL8 : (8 : ℝ) < w.length := hw
    have hL0 : (0 : ℝ) < w.length := lt_trans (by norm_num) hw
    have hV : w.length ^ 2 = w.normSq := w.sq_length
    have he20 : e.length ≤ 20 := e.length_le_of_normSq_le 20 (by norm_num) (by norm_num; exact hE)
    have hD : |e.dot w| ≤ e.length * w.length := e.abs_dot_le w
    have hDlow : -(20 * w.length) ≤ e.dot w := by
      have h1 : e.length * w.length ≤ 20 * w.length :=
        mul_le_mul_of_nonneg_right he20 (le_of_lt hL0)
      have h2 := neg_abs_le (e.dot w)
      have h3 := (abs_le.mp hD).1
      linarith
    -- smul composition: (0.016 : ℝ) • (c • w) = (0.016 * c) • w
    have hsmul : (0.016 : ℝ) • (c • w) = (0.016 * c) • w := by
      ext <;> simp <;> ring
    rw [hsmul, Vec3.normSq_add_smul, Vec3.normSq_add_smul, Vec3.normSq_smul]
    rw [← hV]
    have hbracket : 0 ≤ (192/1000) * e.dot w + (1 + c) * (501536/1000000) * w.length ^ 2 := by
      nlinarith [hDlow, hL8, hc0, sq_nonneg w.length, mul_pos hL0 hL0]
    nlinarith [mul_nonneg (sub_nonneg.mpr hc1) hbracket]

theorem Vec3.dot_comm (a b : Vec3) : a.dot b = b.dot a := by
  unfold Vec3.dot
  ring

theorem Vec3.dot_sub (q a b : Vec3) : q.dot (a - b) = q.dot a - q.dot b := by
  unfold Vec3.dot
  simp
  ring

theorem Vec3.dot_smul (c : ℝ) (q w : Vec3) : q.dot (c • w) = c * q.dot w := by
  unfold Vec3.dot
  simp
  ring

/-- Convexity inequality for the boundary potential
Phi(x) = ((|x| - 4.5)+)^2: its gradient at q (with |q| > 4.5) underestimates
the potential at any other point a. -/
theorem phi_convexity (q a : Vec3) (hq : 4.5 < q.length) :
    (max (q.length - 4.5) 0) ^ 2 + (2 * (q.length - 4.5) / q.length) * (q.dot (a - q))
      ≤ (max (a.length - 4.5) 0) ^ 2 := by
  have hLq0 : (0 : ℝ) < q.length := lt_trans (by norm_num) hq
  have hβ : (0 : ℝ) < q.length - 4.5 := by linarith
  have hmaxq : max (q.length - 4.5) 0 = q.length - 4.5 := max_eq_left (le_of_lt hβ)
  have hqa : q.dot a ≤ q.length * a.length := q.dot_le a
  have hdotself : q.dot q = q.length ^ 2 := by rw [q.dot_self, q.sq_length]
  have hsub : q.dot (a - q) = q.dot a - q.length ^ 2 := by
    rw [Vec3.dot_sub, hdotself]
  have h1 : q.dot a - q.length ^ 2 ≤ q.length * (a.length - q.length) := by
    nlinarith [hqa]
  have h2 : (2 * (q.length - 4.5) / q.length) * (q.dot a - q.length ^ 2)
      ≤ (2 * (q.length - 4.5) / q.length) * (q.length * (a.length - q.length)) :=
    mul_le_mul_of_nonneg_left h1 (by positivity)
  have h3 : (2 * (q.length - 4.5) / q.length) * (q.length * (a.length - q.length))
      = 2 * (q.length - 4.5) * (a.length - q.length) := by
    field_simp
    ring
  rw [hmaxq, hsub]
  rcases le_or_lt a.length 4.5 with ha | ha
  · have hmaxa : max (a.length - 4.5) 0 = 0 := max_eq_right (by linarith)
    rw [hmaxa]
    nlinarith [h2, h3 ▸ h2]
  · have hmaxa : max (a.length - 4.5) 0 = a.length - 4.5 := max_eq_left (by linarith)
    rw [hmaxa]
    nlinarith [h3 ▸ h2, sq_nonneg ((a.length - 4.5) - (q.length - 4.5))]

/-- Energy accounting of the soft-boundary impulse: including the boundary
potential, the kick adds at most 2 dt^2 Phi(pos'), with the first-order
term absorbed exactly by the potential drop (convexity). -/
theorem boundary_energy (pos v2 : Vec3)
    (hd : 4.5 < (pos + (0.016 : ℝ) • v2).length) :
    (max ((pos + (0.016 : ℝ) • v2).length - 4.5) 0) ^ 2 +
      (v2 - (((pos + (0.016 : ℝ) • v2).length - 4.5) * 2 * 0.016 /
        (pos + (0.016 : ℝ) • v2).length) • (pos + (0.016 : ℝ) • v2)).normSq / 2
      ≤ (max (pos.length - 4.5) 0) ^ 2 + v2.normSq / 2 +
        (512/1000000) * (max ((pos + (0.016 : ℝ) • v2).length - 4.5) 0) ^ 2 := by
  set P := pos + (0.016 : ℝ) • v2 with hP
  have hd0 : (0 : ℝ) < P.length := lt_trans (by norm_num) hd
  have hβ : (0 : ℝ) < P.length - 4.5 := by linarith
  have hmaxP : max (P.length - 4.5) 0 = P.length - 4.5 := max_eq_left (le_of_lt hβ)
  have hPnormSq : P.normSq = P.length ^ 2 := P.sq_length.symm
  -- the impulse coefficient and its relation to the gradient factor
  have hcd : ((P.length - 4.5) * 2 * 0.016 / P.length) * P.length
      = (P.length - 4.5) * 0.032 := by
    field_simp
    ring
  -- expand the kicked kinetic energy
  rw [Vec3.normSq_sub_smul]
  -- relate v2 to the position change: P.dot v2 = (P.normSq - P.dot pos) / 0.016
  have hPv2 : (0.016 : ℝ) * (P.dot v2) = P.normSq - P.dot pos := by
    have h1 : P.dot (P - pos) = P.normSq - P.dot pos := by
      rw [Vec3.dot_sub, P.dot_self]
    have h2 : P - pos = (0.016 : ℝ) • v2 := by
      rw [hP]
      ext <;> simp
    rw [← h1, h2, Vec3.dot_smul]
  -- convexity at q = P evaluated at a = pos
  have hconv := phi_convexity P pos hd
  have hconv' : (max (P.length - 4.5) 0) ^ 2 +
      (2 * (P.length - 4.5) / P.length) * (P.dot pos - P.normSq)
      ≤ (max (pos.length - 4.5) 0) ^ 2 := by
    have h1 : P.dot (pos - P) = P.dot pos - P.normSq := by
      rw [Vec3.dot_sub, P.dot_self]
    rw [← h1]
    exact hconv
  -- the cross term -c * (v2 . P) equals the gradient term
  have hcross : -(((P.length - 4.5) * 2 * 0.016 / P.length) * (v2.dot P))
      = (2 * (P.length - 4.5) / P.length) * (P.dot pos - P.normSq) := by
    rw [Vec3.dot_comm]
    have h016 : P.dot v2 = (P.normSq - P.dot pos) / 0.016 := by
      rw [← hPv2]
      field_simp
    rw [h016]
    field_simp
    ring
  -- the quadratic term
  have hquad : (((P.length - 4.5) * 2 * 0.016 / P.length)) ^ 2 * P.normSq
      = (1024/1000000) * (P.length - 4.5) ^ 2 := by
    rw [hPnormSq]
    have : (((P.length - 4.5) * 2 * 0.016 / P.length)) ^ 2 * P.length ^ 2
        = (((P.length - 4.5) * 2 * 0.016 / P.length) * P.length) ^ 2 := by
      ring
    rw [this, hcd]
    ring
  rw [hmaxP] at hconv' ⊢
  nlinarith [hconv', hcross, hquad]

/-- Post-clamp velocity of the fallback tick, as a named stage. -/
noncomputable def fbV2 (dt tOrder : ℝ) (r : Vec3) (p : Particle) : Vec3 :=
  clampVel (fbDamping tOrder • p.vel + dt • fbForce p tOrder r)

/-- Updated position of the fallback tick. -/
noncomputable def fbPosNext (dt tOrder : ℝ) (r : Vec3) (p : Particle) : Vec3 :=
  p.pos + dt • fbV2 dt tOrder r p

theorem fbUpdate_pos (dt tOrder : ℝ) (r : Vec3) (p : Particle) :
    (fbUpdate dt tOrder r p).pos = fbPosNext dt tOrder r p := rfl

theorem fbUpdate_home (dt tOrder : ℝ) (r : Vec3) (p : Particle) :
    (fbUpdate dt tOrder r p).home = p.home := rfl

theorem fbUpdate_vel (dt tOrder : ℝ) (r : Vec3) (p : Particle) :
    (fbUpdate dt tOrder r p).vel =
      if 4.5 < (fbPosNext dt tOrder r p).length then
        fbV2 dt tOrder r p -
          (((fbPosNext dt tOrder r p).length - 4.5) * 2 * dt /
            (fbPosNext dt tOrder r p).length) • fbPosNext dt tOrder r p
      else fbV2 dt tOrder r p := rfl

/-- Lyapunov functional: spring energy + kinetic energy + boundary
potential. -/
noncomputable def lyap (p : Particle) : ℝ :=
  6 * (p.pos - p.home).normSq + p.vel.normSq / 2 + (max (p.pos.length - 4.5) 0) ^ 2

theorem lyap_nonneg (p : Particle) : 0 ≤ lyap p := by
  unfold lyap
  have h1 := Vec3.normSq_nonneg (p.pos - p.home)
  have h2 := Vec3.normSq_nonneg p.vel
  have h3 := sq_nonneg (max (p.pos.length - 4.5) 0)
  linarith

/-- The boundary potential is dominated by the spring energy whenever the
home anchor lies within radius 4 of the origin. -/
theorem phi_le_offset (x h : Vec3) (hh : h.normSq ≤ 16) :
    (max (x.length - 4.5) 0) ^ 2 ≤ (x - h).normSq := by
  rcases le_or_lt x.length 4.5 with hx | hx
  · rw [max_eq_right (by linarith)]
    simpa using Vec3.normSq_nonneg (x - h)
  · rw [max_eq_left (by linarith)]
    have hh4 : h.length ≤ 4 := h.length_le_of_normSq_le 4 (by norm_num) (by norm_num; exact hh)
    have hcancel : (x - h) + h = x := by ext <;> simp
    have htri : x.length ≤ (x - h).length + h.length := by
      have := Vec3.length_add_le (x - h) h
      rw [hcancel] at this
      exact this
    have hle : x.length - 4.5 ≤ (x - h).length := by linarith
    have h0 : (0 : ℝ) ≤ x.length - 4.5 := by linarith
    have := pow_le_pow_left₀ h0 hle 2
    rw [(x - h).sq_length] at this
    exact this

/-- Per-step contraction of the Lyapunov functional by factor 499/500 for
the fallback tick at t_order = 1, valid inside the invariant region
|e|^2 <= 400 with the home anchor within radius 4. -/
theorem step_contraction (p : Particle) (r : Vec3)
    (hh : p.home.normSq ≤ 16)
    (hE : (p.pos - p.home).normSq ≤ 400) :
    lyap (fbUpdate 0.016 1 r p) ≤ (499/500) * lyap p := by
  have hv1 : fbDamping 1 • p.vel + (0.016 : ℝ) • fbForce p 1 r =
      springVel (p.pos - p.home) p.vel := fbV1_eq p r
  have hv2 : fbV2 0.016 1 r p = clampVel (springVel (p.pos - p.home) p.vel) := by
    unfold fbV2
    rw [hv1]
  have hP : fbPosNext 0.016 1 r p = p.pos + (0.016 : ℝ) • fbV2 0.016 1 r p := rfl
  have he' : fbPosNext 0.016 1 r p - p.home =
      (p.pos - p.home) + (0.016 : ℝ) • fbV2 0.016 1 r p := by
    rw [hP]
    ext <;> simp <;> ring
  -- A: clamp comparison followed by the unclamped decay
  have hA : 6 * ((p.pos - p.home) + (0.016 : ℝ) • fbV2 0.016 1 r p).normSq +
      (fbV2 0.016 1 r p).normSq / 2
      ≤ 6 * (p.pos - p.home).normSq + p.vel.normSq / 2 -
        (18/1000) * (p.pos - p.home).normSq - (277/10000) * p.vel.normSq := by
    calc 6 * ((p.pos - p.home) + (0.016 : ℝ) • fbV2 0.016 1 r p).normSq +
        (fbV2 0.016 1 r p).normSq / 2
        = 6 * ((p.pos - p.home) +
            (0.016 : ℝ) • clampVel (springVel (p.pos - p.home) p.vel)).normSq +
          (clampVel (springVel (p.pos - p.home) p.vel)).normSq / 2 := by rw [hv2]
      _ ≤ 6 * ((p.pos - p.home) +
            (0.016 : ℝ) • springVel (p.pos - p.home) p.vel).normSq +
          (springVel (p.pos - p.home) p.vel).normSq / 2 :=
        clamp_compare (p.pos - p.home) (springVel (p.pos - p.home) p.vel) hE
      _ ≤ 6 * (p.pos - p.home).normSq + p.vel.normSq / 2 -
            (18/1000) * (p.pos - p.home).normSq - (277/10000) * p.vel.normSq :=
        noclamp_decay (p.pos - p.home) p.vel
  -- Phi' is dominated by the new spring energy
  have hphiP : (max ((fbPosNext 0.016 1 r p).length - 4.5) 0) ^ 2 ≤
      ((p.pos - p.home) + (0.016 : ℝ) • fbV2 0.016 1 r p).normSq := by
    have := phi_le_offset (fbPosNext 0.016 1 r p) p.home hh
    rw [he'] at this
    exact this
  -- B: boundary accounting
  have hB : (max ((fbPosNext 0.016 1 r p).length - 4.5) 0) ^ 2 +
      ((fbUpdate 0.016 1 r p).vel).normSq / 2
      ≤ (max (p.pos.length - 4.5) 0) ^ 2 + (fbV2 0.016 1 r p).normSq / 2 +
        (512/1000000) * ((p.pos - p.home) + (0.016 : ℝ) • fbV2 0.016 1 r p).normSq := by
    rw [fbUpdate_vel]
    by_cases hfire : 4.5 < (fbPosNext 0.016 1 r p).length
    · rw [if_pos hfire]
      have hbe := boundary_energy p.pos (fbV2 0.016 1 r p) (by rw [← hP]; exact hfire)
      rw [← hP] at hbe
      nlinarith [hbe, hphiP]
    · rw [if_neg hfire]
      have hmax0 : max ((fbPosNext 0.016 1 r p).length - 4.5) 0 = 0 :=
        max_eq_right (by linarith [not_lt.mp hfire])
      rw [hmax0]
      have h1 := sq_nonneg (max (p.pos.length - 4.5) 0)
      have h2 := Vec3.normSq_nonneg ((p.pos - p.home) + (0.016 : ℝ) • fbV2 0.016 1 r p)
      nlinarith
  -- E' is bounded by the old energies
  have hE' : ((p.pos - p.home) + (0.016 : ℝ) • fbV2 0.016 1 r p).normSq
      ≤ (p.pos - p.home).normSq + p.vel.normSq / 12 := by
    nlinarith [hA, Vec3.normSq_nonneg (fbV2 0.016 1 r p),
      Vec3.normSq_nonneg (p.pos - p.home), Vec3.normSq_nonneg p.vel]
  -- Phi(p) is dominated by the old spring energy
  have hphi : (max (p.pos.length - 4.5) 0) ^ 2 ≤ (p.pos - p.home).normSq :=
    phi_le_offset p.pos p.home hh
  -- assemble
  have hlyapNew : lyap (fbUpdate 0.016 1 r p) =
      6 * ((p.pos - p.home) + (0.016 : ℝ) • fbV2 0.016 1 r p).normSq +
        ((fbUpdate 0.016 1 r p).vel).normSq / 2 +
        (max ((fbPosNext 0.016 1 r p).length - 4.5) 0) ^ 2 := by
    unfold lyap
    rw [fbUpdate_pos, fbUpdate_home, he']
  have hlyapOld : lyap p =
      6 * (p.pos - p.home).normSq + p.vel.normSq / 2 +
        (max (p.pos.length - 4.5) 0) ^ 2 := rfl
  rw [hlyapNew, hlyapOld]
  linarith [hA, hB, hE', hphi, Vec3.normSq_nonneg (p.pos - p.home),
    Vec3.normSq_nonneg p.vel, sq_nonneg (max (p.pos.length - 4.5) 0)]

theorem Vec3.length_sub_le (a b : Vec3) : (a - b).length ≤ a.length + b.length := by
  have hrw : a - b = a + (-1 : ℝ) • b := by
    ext <;> simp [sub_eq_add_neg]
  rw [hrw]
  have := Vec3.length_add_le a ((-1 : ℝ) • b)
  rw [Vec3.length_smul] at this
  simpa using this

theorem fbV2_length_le (dt tOrder : ℝ) (r : Vec3) (p : Particle) :
    (fbV2 dt tOrder r p).length ≤ 8 :=
  clampVel_length_le _

/-- After one tick from any velocity, a particle that started inside the
soft boundary has Lyapunov value at most 600: the clamp caps the speed at
8, so the position moves at most 0.128 and the offset is at most 8.628. -/
theorem bootstrap_bound (p : Particle) (r : Vec3)
    (hh : p.home.normSq ≤ 16) (hpos : p.pos.length ≤ 4.5) :
    lyap (fbUpdate 0.016 1 r p) ≤ 600 := by
  have hh4 : p.home.length ≤ 4 :=
    p.home.length_le_of_normSq_le 4 (by norm_num) (by norm_num; exact hh)
  have hv2 : (fbV2 0.016 1 r p).length ≤ 8 := fbV2_length_le 0.016 1 r p
  have hsm : ((0.016 : ℝ) • fbV2 0.016 1 r p).length ≤ 0.128 := by
    rw [Vec3.length_smul, abs_of_nonneg (by norm_num : (0 : ℝ) ≤ 0.016)]
    nlinarith
  have hPlen : (fbPosNext 0.016 1 r p).length ≤ 4.628 := by
    have := Vec3.length_add_le p.pos ((0.016 : ℝ) • fbV2 0.016 1 r p)
    have hP : fbPosNext 0.016 1 r p = p.pos + (0.016 : ℝ) • fbV2 0.016 1 r p := rfl
    rw [hP]
    linarith
  have he'len : (fbPosNext 0.016 1 r p - p.home).length ≤ 8.628 := by
    have := Vec3.length_sub_le (fbPosNext 0.016 1 r p) p.home
    linarith
  have hE' : (fbPosNext 0.016 1 r p - p.home).normSq ≤ 8.628 ^ 2 := by
    have h2 := pow_le_pow_left₀ (Vec3.length_nonneg _) he'len 2
    rw [(fbPosNext 0.016 1 r p - p.home).sq_length] at h2
    exact h2
  -- boundary potential after the step
  have hphi' : (max ((fbPosNext 0.016 1 r p).length - 4.5) 0) ^ 2 ≤ 0.128 ^ 2 := by
    rcases le_or_lt (fbPosNext 0.016 1 r p).length 4.5 with hle | hgt
    · rw [max_eq_right (by linarith)]
      norm_num
    · rw [max_eq_left (by linarith)]
      have h1 : (0 : ℝ) ≤ (fbPosNext 0.016 1 r p).length - 4.5 := by linarith
      nlinarith [hPlen]
  -- velocity after the boundary branch
  have hv3 : ((fbUpdate 0.016 1 r p).vel).length ≤ 8.005 := by
    rw [fbUpdate_vel]
    by_cases hfire : 4.5 < (fbPosNext 0.016 1 r p).length
    · rw [if_pos hfire]
      have hd0 : (0 : ℝ) < (fbPosNext 0.016 1 r p).length := by linarith
      have hc0 : (0 : ℝ) ≤ ((fbPosNext 0.016 1 r p).length - 4.5) * 2 * 0.016 /
          (fbPosNext 0.016 1 r p).length :=
        div_nonneg (by nlinarith [hfire]) (le_of_lt hd0)
      have hkick : ((((fbPosNext 0.016 1 r p).length - 4.5) * 2 * 0.016 /
          (fbPosNext 0.016 1 r p).length) • fbPosNext 0.016 1 r p).length
          ≤ 0.0041 := by
        rw [Vec3.length_smul, abs_of_nonneg hc0]
        have hcd : (((fbPosNext 0.016 1 r p).length - 4.5) * 2 * 0.016 /
            (fbPosNext 0.016 1 r p).length) * (fbPosNext 0.016 1 r p).length
            = ((fbPosNext 0.016 1 r p).length - 4.5) * 0.032 := by
          field_simp
          ring
        rw [hcd]
        nlinarith [hPlen, hfire]
      have := Vec3.length_sub_le (fbV2 0.016 1 r p)
        ((((fbPosNext 0.016 1 r p).length - 4.5) * 2 * 0.016 /
          (fbPosNext 0.016 1 r p).length) • fbPosNext 0.016 1 r p)
      linarith
    · rw [if_neg hfire]
      linarith
  have hV3 : ((fbUpdate 0.016 1 r p).vel).normSq ≤ 8.005 ^ 2 := by
    have h2 := pow_le_pow_left₀ (Vec3.length_nonneg _) hv3 2
    rw [((fbUpdate 0.016 1 r p).vel).sq_length] at h2
    exact h2
  unfold lyap
  rw [fbUpdate_pos, fbUpdate_home]
  nlinarith [hE', hV3, hphi']

/-- Iterated fallback tick at t_order = 1 with the noise stream r. -/
noncomputable def fbIterate (r : ℕ → Vec3) (p : Particle) : ℕ → Particle
  | 0 => p
  | n + 1 => fbUpdate 0.016 1 (r n) (fbIterate r p n)

theorem fbIterate_home (r : ℕ → Vec3) (p : Particle) (n : ℕ) :
    (fbIterate r p n).home = p.home := by
  induction n with
  | zero => rfl
  | succ k ih =>
    show (fbUpdate 0.016 1 (r k) (fbIterate r p k)).home = p.home
    rw [fbUpdate_home]
    exact ih

theorem lyap_spring_le (p : Particle) : 6 * (p.pos - p.home).normSq ≤ lyap p := by
  unfold lyap
  have h2 := Vec3.normSq_nonneg p.vel
  have h3 := sq_nonneg (max (p.pos.length - 4.5) 0)
  linarith

/-- Geometric decay of the Lyapunov functional along the iteration, after
the bootstrap step. -/
theorem iterate_decay (r : ℕ → Vec3) (p : Particle)
    (hh : p.home.normSq ≤ 16) (hpos : p.pos.length ≤ 4.5) :
    ∀ n, lyap (fbIterate r p (n + 1)) ≤ 600 * (499/500) ^ n := by
  intro n
  induction n with
  | zero =>
    have := bootstrap_bound p (r 0) hh hpos
    simpa using this
  | succ k ih =>
    have hh' : (fbIterate r p (k + 1)).home.normSq ≤ 16 := by
      rw [fbIterate_home]
      exact hh
    have hpk : (499/500 : ℝ) ^ k ≤ 1 :=
      pow_le_one₀ (by norm_num) (by norm_num)
    have hEk : ((fbIterate r p (k + 1)).pos - (fbIterate r p (k + 1)).home).normSq ≤ 400 := by
      have h1 := lyap_spring_le (fbIterate r p (k + 1))
      nlinarith [ih, hpk]
    have hstep := step_contraction (fbIterate r p (k + 1)) (r (k + 1)) hh' hEk
    have hrw : fbIterate r p (k + 1 + 1) =
        fbUpdate 0.016 1 (r (k + 1)) (fbIterate r p (k + 1)) := rfl
    rw [hrw]
    calc lyap (fbUpdate 0.016 1 (r (k + 1)) (fbIterate r p (k + 1)))
        ≤ (499/500) * lyap (fbIterate r p (k + 1)) := hstep
      _ ≤ (499/500) * (600 * (499/500) ^ k) := by
          apply mul_le_mul_of_nonneg_left ih (by norm_num)
      _ = 600 * (499/500) ^ (k + 1) := by ring

/-- Post-clamp velocity of the GPU tick, as a named stage. -/
noncomputable def gpuV2 (u : PhysUniforms) (n : Vec3) (p : Particle) : Vec3 :=
  clampVel (wgslMix u.dampingChaos u.dampingOrdered u.tOrder • p.vel +
    u.dt • ((u.springK * u.tOrder) • (p.home - p.pos) +
      ⟨n.x * u.noiseStrength * (1 - u.tOrder),
       n.y * u.noiseStrength * (1 - u.tOrder),
       n.z * u.noiseStrength * (1 - u.tOrder)⟩))

/-- Updated position of the GPU tick. -/
noncomputable def gpuPosNext (u : PhysUniforms) (n : Vec3) (p : Particle) : Vec3 :=
  p.pos + u.dt • gpuV2 u n p

theorem gpuUpdate_pos (u : PhysUniforms) (n : Vec3) (p : Particle) :
    (gpuUpdate u n p).pos = gpuPosNext u n p := rfl

theorem gpuUpdate_home (u : PhysUniforms) (n : Vec3) (p : Particle) :
    (gpuUpdate u n p).home = p.home := rfl

theorem gpuUpdate_vel (u : PhysUniforms) (n : Vec3) (p : Particle) :
    (gpuUpdate u n p).vel =
      if 4.5 < (gpuPosNext u n p).length then
        gpuV2 u n p - u.dt • ((((gpuPosNext u n p).length - 4.5) * 2 /
          (gpuPosNext u n p).length) • gpuPosNext u n p)
      else gpuV2 u n p := rfl

/-- At t_order = 1 with damping_ordered = 0.97 and spring_k = 12, one GPU
tick produces the same position and velocity as one fallback tick, for any
damping_chaos, noise_strength and noise draws (both noise terms are
multiplied by 1 - t_order = 0). -/
theorem gpu_fb_step_agree (dc ns : ℝ) (nv rv : Vec3) (p q : Particle)
    (h1 : p.pos = q.pos) (h2 : p.vel = q.vel) (h3 : p.home = q.home) :
    (gpuUpdate ⟨0.016, 1, 0.97, dc, ns, 12⟩ nv p).pos = (fbUpdate 0.016 1 rv q).pos ∧
    (gpuUpdate ⟨0.016, 1, 0.97, dc, ns, 12⟩ nv p).vel = (fbUpdate 0.016 1 rv q).vel ∧
    (gpuUpdate ⟨0.016, 1, 0.97, dc, ns, 12⟩ nv p).home = (fbUpdate 0.016 1 rv q).home := by
  have hV2 : gpuV2 ⟨0.016, 1, 0.97, dc, ns, 12⟩ nv p = fbV2 0.016 1 rv q := by
    unfold gpuV2 fbV2
    congr 1
    unfold wgslMix fbForce fbDamping
    rw [h1, h2, h3]
    ext <;> simp only [Vec3.smul_def, Vec3.add_def, Vec3.sub_def] <;> ring
  have hPos : gpuPosNext ⟨0.016, 1, 0.97, dc, ns, 12⟩ nv p = fbPosNext 0.016 1 rv q := by
    unfold gpuPosNext fbPosNext
    rw [hV2, h1]
  refine ⟨?_, ?_, ?_⟩
  · rw [gpuUpdate_pos, fbUpdate_pos, hPos]
  · rw [gpuUpdate_vel, fbUpdate_vel, hV2, hPos]
    by_cases hfire : 4.5 < (fbPosNext 0.016 1 rv q).length
    · rw [if_pos hfire, if_pos hfire]
      ext <;> simp only [Vec3.smul_def, Vec3.sub_def] <;> ring
    · rw [if_neg hfire, if_neg hfire]
  · rw [gpuUpdate_home, fbUpdate_home, h3]

/-- Iterated GPU tick at t_order = 1 with uniforms damping_ordered 0.97,
spring_k 12, and arbitrary damping_chaos / noise_strength / noise draws. -/
noncomputable def gpuIterate (dc ns : ℝ) (nv : ℕ → Vec3) (p : Particle) : ℕ → Particle
  | 0 => p
  | n + 1 => gpuUpdate ⟨0.016, 1, 0.97, dc, ns, 12⟩ (nv n) (gpuIterate dc ns nv p n)

theorem gpu_fb_iterate_agree (dc ns : ℝ) (nv rv : ℕ → Vec3) (p : Particle) (n : ℕ) :
    (gpuIterate dc ns nv p n).pos = (fbIterate rv p n).pos ∧
    (gpuIterate dc ns nv p n).vel = (fbIterate rv p n).vel ∧
    (gpuIterate dc ns nv p n).home = (fbIterate rv p n).home := by
  induction n with
  | zero => exact ⟨rfl, rfl, rfl⟩
  | succ k ih =>
    obtain ⟨hp, hv, hh⟩ := ih
    exact gpu_fb_step_agree dc ns (nv k) (rv k) _ _ hp hv hh

theorem mem_bccRow_bounded {v : QVec3} {z y : ℕ} (h : v ∈ bccRow z y) :
    ∃ x ≤ 6, v = bccCorner z y x ∨ v = bccBody z y x := by
  obtain ⟨x, hx7, hx⟩ := List.mem_flatMap.mp h
  simp only [bccCell, List.mem_cons, List.not_mem_nil, or_false] at hx
  exact ⟨x, Nat.lt_succ_iff.mp (List.mem_range.mp hx7), hx⟩

theorem mem_bccLayer_bounded {v : QVec3} {z : ℕ} (h : v ∈ bccLayer z) :
    ∃ y ≤ 6, ∃ x ≤ 6, v = bccCorner z y x ∨ v = bccBody z y x := by
  obtain ⟨y, hy7, hy⟩ := List.mem_flatMap.mp h
  obtain ⟨x, hx6, hx⟩ := mem_bccRow_bounded hy
  exact ⟨y, Nat.lt_succ_iff.mp (List.mem_range.mp hy7), x, hx6, hx⟩

theorem mem_bccHomes_shape {v : QVec3} (h : v ∈ bccHomes) :
    ∃ z ≤ 5, ∃ y ≤ 6, ∃ x ≤ 6, v = bccCorner z y x ∨ v = bccBody z y x := by
  rw [bccHomes_decomp] at h
  rcases List.mem_append.mp h with h | h
  · obtain ⟨z, hz, hmem⟩ := List.mem_flatMap.mp h
    have hz5 : z ≤ 4 := Nat.lt_succ_iff.mp (List.mem_range.mp hz)
    obtain ⟨y, hy, x, hx, hv⟩ := mem_bccLayer_bounded hmem
    exact ⟨z, by omega, y, hy, x, hx, hv⟩
  · have h5 := List.take_subset 22 _ h
    obtain ⟨y, hy, x, hx, hv⟩ := mem_bccLayer_bounded h5
    exact ⟨5, le_refl 5, y, hy, x, hx, hv⟩

/-- All 512 placed lattice homes lie within squared radius 16 (radius 4) of
the origin: corners within 15/7 per axis, bodies within 5/2 on x and y and
25/14 on z since placement never reaches layer z = 6. -/
theorem bccHomes_normSq_le {v : QVec3} (h : v ∈ bccHomes) :
    v.x ^ 2 + v.y ^ 2 + v.z ^ 2 ≤ 16 := by
  obtain ⟨z, hz, y, hy, x, hx, hv | hv⟩ := mem_bccHomes_shape h
  · subst hv
    show (cornerCoord x) ^ 2 + (cornerCoord y) ^ 2 + (cornerCoord z) ^ 2 ≤ 16
    have hb : ∀ a : ℕ, a ≤ 6 → (cornerCoord a) ^ 2 ≤ 225/49 := by
      intro a ha
      unfold cornerCoord
      have h0 : (0 : ℚ) ≤ (a : ℚ) := Nat.cast_nonneg a
      have h6 : (a : ℚ) ≤ 6 := by exact_mod_cast ha
      nlinarith
    have h1 := hb x hx
    have h2 := hb y hy
    have h3 := hb z (by omega)
    linarith
  · subst hv
    show (bodyCoord x) ^ 2 + (bodyCoord y) ^ 2 + (bodyCoord z) ^ 2 ≤ 16
    have hb : ∀ a : ℕ, a ≤ 6 → (bodyCoord a) ^ 2 ≤ 25/4 := by
      intro a ha
      unfold bodyCoord
      have h0 : (0 : ℚ) ≤ (a : ℚ) := Nat.cast_nonneg a
      have h6 : (a : ℚ) ≤ 6 := by exact_mod_cast ha
      nlinarith
    have hbz : (bodyCoord z) ^ 2 ≤ 625/196 := by
      unfold bodyCoord
      have h0 : (0 : ℚ) ≤ (z : ℚ) := Nat.cast_nonneg z
      have h5 : (z : ℚ) ≤ 5 := by exact_mod_cast hz
      nlinarith
    have h1 := hb x hx
    have h2 := hb y hy
    linarith

/-- Cast of a rational lattice vector into the real physics vectors. -/
noncomputable def QVec3.toVec3 (v : QVec3) : Vec3 := ⟨(v.x : ℝ), (v.y : ℝ), (v.z : ℝ)⟩

/-- Every fallback lattice home satisfies the home-radius hypothesis of the
convergence theorem. -/
theorem bccHomes_toVec3_normSq_le {v : QVec3} (h : v ∈ bccHomes) :
    (QVec3.toVec3 v).normSq ≤ 16 := by
  unfold QVec3.toVec3 Vec3.normSq
  dsimp only
  have := bccHomes_normSq_le h
  exact_mod_cast this

/-- Claim C9: with t_order = 1 (so the noise terms of both integrators
vanish), dt = 0.016, damping 0.97, spring constant 12, and an initial
position inside the soft-boundary radius 4.5, the particle's position
converges to its home: for every eps > 0 there is a step count N after
which the position stays within eps of home_position.  This holds for any
initial velocity and any noise streams, for both the fallback tick
(fbIterate) and the GPU tick (gpuIterate, any damping_chaos and
noise_strength uniforms).  The home-radius hypothesis normSq <= 16 is
satisfied by every generated lattice home (bccHomes_toVec3_normSq_le). -/
theorem spring_relaxation_converges (home pos₀ vel₀ : Vec3) (s₀ : ℝ)
    (hhome : home.normSq ≤ 16) (hpos : pos₀.length ≤ 4.5) :
    (∀ r : ℕ → Vec3, ∀ ε > 0, ∃ N, ∀ n ≥ N,
      ((fbIterate r ⟨pos₀, vel₀, home, s₀⟩ n).pos - home).length ≤ ε) ∧
    (∀ (dc ns : ℝ) (nv : ℕ → Vec3), ∀ ε > 0, ∃ N, ∀ n ≥ N,
      ((gpuIterate dc ns nv ⟨pos₀, vel₀, home, s₀⟩ n).pos - home).length ≤ ε) := by
  have hcore : ∀ r : ℕ → Vec3, ∀ ε > 0, ∃ N, ∀ n ≥ N,
      ((fbIterate r ⟨pos₀, vel₀, home, s₀⟩ n).pos - home).length ≤ ε := by
    intro r ε hε
    obtain ⟨M, hM⟩ := exists_pow_lt_of_lt_one
      (show (0 : ℝ) < ε ^ 2 / 100 by positivity)
      (by norm_num : (499/500 : ℝ) < 1)
    refine ⟨M + 1, fun n hn => ?_⟩
    obtain ⟨k, rfl⟩ : ∃ k, n = k + 1 := ⟨n - 1, by omega⟩
    have hkM : M ≤ k := by omega
    have hdecay := iterate_decay r ⟨pos₀, vel₀, home, s₀⟩ hhome hpos k
    have hpow : (499/500 : ℝ) ^ k ≤ (499/500) ^ M :=
      pow_le_pow_of_le_one (by norm_num) (by norm_num) hkM
    have hlt : lyap (fbIterate r ⟨pos₀, vel₀, home, s₀⟩ (k + 1)) ≤ 6 * ε ^ 2 := by
      nlinarith [hM, hpow, hdecay]
    have hE := lyap_spring_le (fbIterate r ⟨pos₀, vel₀, home, s₀⟩ (k + 1))
    have hhome' : (fbIterate r ⟨pos₀, vel₀, home, s₀⟩ (k + 1)).home = home :=
      fbIterate_home r ⟨pos₀, vel₀, home, s₀⟩ (k + 1)
    have hsq : ((fbIterate r ⟨pos₀, vel₀, home, s₀⟩ (k + 1)).pos - home).normSq ≤ ε ^ 2 := by
      rw [hhome'] at hE
      linarith
    exact Vec3.length_le_of_normSq_le _ ε (le_of_lt hε) hsq
  refine ⟨hcore, ?_⟩
  intro dc ns nv ε hε
  obtain ⟨N, hN⟩ := hcore (fun _ => 0) ε hε
  refine ⟨N, fun n hn => ?_⟩
  have hagree := (gpu_fb_iterate_agree dc ns nv (fun _ => 0) ⟨pos₀, vel₀, home, s₀⟩ n).1
  rw [hagree]
  exact hN n hn

/-- Witness for C9: a particle starting at the origin with zero velocity and
home at the origin converges to within 1 of home. -/
theorem spring_relaxation_converges_witness :
    ∃ N, ∀ n ≥ N, ((fbIterate (fun _ => 0) ⟨0, 0, 0, 0⟩ n).pos - 0).length ≤ 1 :=
  (spring_relaxation_converges 0 0 0 0
    (by rw [Vec3.zero_def]; unfold Vec3.normSq; norm_num)
    (by rw [Vec3.length_zero]; norm_num)).1 (fun _ => 0) 1 (by norm_num)
